import Mathlib

/-!
Verification of the ShopAI orchestration service (Go): a shallow embedding of
the tool-call extractor (`handlers/xml_parser.go`), the chat handler reply
assembly, the MCP gateway client (`mcp/client.go`), and the iterative
tool-calling loop, together with theorems about the specified behavior.

Go regular-expression scanning (package `regexp`, RE2 with leftmost-first
semantics) is modeled by explicit character-level scanners over `List Char`,
specialized to the concrete patterns appearing in the source.
-/

namespace ShopAI

/-! ## Go string primitives -/

/-- The character class of Go `unicode.IsSpace`, used by `strings.TrimSpace`. -/
def goIsSpace (c : Char) : Bool :=
  c = ' ' || c = '\t' || c = '\n' || c.toNat = 11 || c.toNat = 12 || c = '\r' ||
  c.toNat = 0x85 || c.toNat = 0xA0 || c.toNat = 0x1680 ||
  (0x2000 ≤ c.toNat && c.toNat ≤ 0x200A) || c.toNat = 0x2028 || c.toNat = 0x2029 ||
  c.toNat = 0x202F || c.toNat = 0x205F || c.toNat = 0x3000

/-- Go `strings.TrimSpace` on a character list: drop spaces from both ends. -/
def trimChars (l : List Char) : List Char :=
  ((l.dropWhile goIsSpace).reverse.dropWhile goIsSpace).reverse

/-- Go `strings.TrimSpace`. -/
def goTrimSpace (s : String) : String :=
  ⟨trimChars s.data⟩

/-- Decimal value of a nonempty all-digit character list, `none` otherwise. -/
def decDigitsVal : List Char → Option Nat
  | [] => none
  | l =>
    if l.all (fun c => c.isDigit) then
      some (l.foldl (fun a c => a * 10 + (c.toNat - 48)) 0)
    else none

/-- Go `strconv.Atoi`: optional sign, a nonempty run of decimal digits, and the
value must fit in a signed 64-bit integer (Go returns `ErrRange` otherwise,
which the caller treats as failure). -/
def goAtoi (s : String) : Option Int :=
  match s.data with
  | '+' :: rest =>
    match decDigitsVal rest with
    | some n => if n ≤ 9223372036854775807 then some (Int.ofNat n) else none
    | none => none
  | '-' :: rest =>
    match decDigitsVal rest with
    | some n => if n ≤ 9223372036854775808 then some (-(Int.ofNat n)) else none
    | none => none
  | l =>
    match decDigitsVal l with
    | some n => if n ≤ 9223372036854775807 then some (Int.ofNat n) else none
    | none => none

/-! ## Literal substring search

`findSub pat s` models leftmost search for the literal `pat`: it returns the
text before the first occurrence and the text after it.  This is the behavior
of Go `strings.Contains` / the lazy regex `pat1([\s\S]*?)pat2` used in
`xml_parser.go` (a lazy wildcard between two literals matches from the first
occurrence of the opening literal to the first occurrence of the closing
literal after it). -/

def findSub (pat : List Char) : List Char → Option (List Char × List Char)
  | [] => if pat.isEmpty then some ([], []) else none
  | c :: rest =>
    if pat.isPrefixOf (c :: rest) then some ([], (c :: rest).drop pat.length)
    else
      match findSub pat rest with
      | some (pre, post) => some (c :: pre, post)
      | none => none

/-- Go `strings.Contains`. -/
def containsSub (pat s : List Char) : Bool :=
  (findSub pat s).isSome

/-- The content between the first occurrence of `op` and the first occurrence
of `cl` after it: Go `regexp` extraction with pattern `op([\s\S]*?)cl`. -/
def extractBetween (op cl s : List Char) : Option (List Char) :=
  match findSub op s with
  | none => none
  | some (_, rest) =>
    match findSub cl rest with
    | none => none
    | some (content, _) => some content

def fcOpen : List Char := "<func_call>".data
def fcClose : List Char := "</func_call>".data
def tnOpen : List Char := "<tool_name>".data
def tnClose : List Char := "</tool_name>".data
def argOpen : List Char := "<arguments>".data
def argClose : List Char := "</arguments>".data

/-- Lazy scan for `</tool_name>` over characters matched by `.` (which in Go
RE2 excludes the newline): returns the shortest run of non-newline characters
ending right before the closing literal. -/
def scanToClose : List Char → Option (List Char)
  | [] => none
  | c :: rest =>
    if tnClose.isPrefixOf (c :: rest) then some []
    else if c = '\n' then none
    else (scanToClose rest).map (fun l => c :: l)

/-- Leftmost-first match of the Go regex `<tool_name>(.*?)</tool_name>`:
try every start position in order; where the opening literal matches, run the
lazy scan, and on its failure resume from the next position. -/
def findToolName : List Char → Option (List Char)
  | [] => none
  | c :: rest =>
    if tnOpen.isPrefixOf (c :: rest) then
      match scanToClose ((c :: rest).drop tnOpen.length) with
      | some content => some content
      | none => findToolName rest
    else findToolName rest

/-! ## Generic argument tag scanning -/

/-- Go regex `\w` (ASCII word character). -/
def isWordChar (c : Char) : Bool :=
  c.isAlphanum || c = '_'

/-- One `<key>value</key>`-shaped match of the Go regex
`<(\w+)>([^<]*)</(\w+)>`: open tag name, raw value, close tag name. -/
structure TagMatch where
  openName : List Char
  value : List Char
  closeName : List Char
deriving Repr, DecidableEq

/-- Match the tag regex anchored at the start of `s`; on success also return
the remainder of the input after the match.  Greedy `\w+` and `[^<]*` with a
mandated following character never backtrack, so maximal runs are correct. -/
def matchTagAt (s : List Char) : Option (TagMatch × List Char) :=
  match s with
  | c0 :: rest =>
    if c0 = '<' then
      let name := rest.takeWhile isWordChar
      let rest1 := rest.dropWhile isWordChar
      if name.isEmpty then none
      else
        match rest1 with
        | c1 :: rest2 =>
          if c1 = '>' then
            let value := rest2.takeWhile (fun c => c ≠ '<')
            let rest3 := rest2.dropWhile (fun c => c ≠ '<')
            match rest3 with
            | c2 :: c3 :: rest4 =>
              if c2 = '<' ∧ c3 = '/' then
                let cname := rest4.takeWhile isWordChar
                let rest5 := rest4.dropWhile isWordChar
                if cname.isEmpty then none
                else
                  match rest5 with
                  | c4 :: rest6 =>
                    if c4 = '>' then some (⟨name, value, cname⟩, rest6) else none
                  | [] => none
              else none
            | _ => none
          else none
        | [] => none
    else none
  | [] => none

/-- Go `FindAllStringSubmatch`: non-overlapping leftmost matches; on failure
at a position, advance one character; on success, continue after the match.
Implemented with a length fuel so that it is structurally recursive. -/
def scanTagsAux : Nat → List Char → List TagMatch
  | 0, _ => []
  | _ + 1, [] => []
  | fuel + 1, c :: rest =>
    match matchTagAt (c :: rest) with
    | some (m, rem) => m :: scanTagsAux fuel rem
    | none => scanTagsAux fuel rest

def scanTags (s : List Char) : List TagMatch :=
  scanTagsAux s.length s

/-! ## Argument value typing and the argument map -/

/-- A JSON value stored in the Go `map[string]interface{}` of parsed
arguments: either a string or an integer. -/
inductive JVal where
  | str (s : String)
  | int (n : Int)
deriving Repr, DecidableEq

/-- Value typing policy of `parseToolCallFromXML` (xml_parser.go:75-86):
`customerPhone` and `orderId` stay strings; anything else becomes an integer
exactly when `strconv.Atoi` succeeds on the trimmed value. -/
def coerceValue (key value : String) : JVal :=
  if key = "customerPhone" ∨ key = "orderId" then .str value
  else
    match goAtoi value with
    | some n => .int n
    | none => .str value

/-- Update of the Go argument map `args[key] = v`: replace the binding if the
key is present, append it otherwise. -/
def mapSet (m : List (String × JVal)) (k : String) (v : JVal) :
    List (String × JVal) :=
  if m.any (fun p => p.1 = k) then
    m.map (fun p => if p.1 = k then (k, v) else p)
  else m ++ [(k, v)]

/-- One iteration of the loop of xml_parser.go:64-88: skip a mismatched
open/close pair, otherwise apply the typing policy to the trimmed value and
insert (overwriting an earlier binding of the same key). -/
def processTag (m : List (String × JVal)) (t : TagMatch) : List (String × JVal) :=
  if t.openName ≠ t.closeName then m
  else
    let key : String := ⟨t.openName⟩
    mapSet m key (coerceValue key (goTrimSpace ⟨t.value⟩))

/-- The loop of xml_parser.go:64-88 over all scanned tag pairs. -/
def processTags (tags : List TagMatch) : List (String × JVal) :=
  tags.foldl processTag []

/-! ## JSON serialization of the argument map (Go `json.Marshal`) -/

def hexDigit (n : Nat) : Char :=
  if n < 10 then Char.ofNat (48 + n) else Char.ofNat (87 + n)

/-- Go `encoding/json` string escaping (HTML escaping enabled, the default). -/
def jsonEscapeChar (c : Char) : String :=
  if c = '"' then "\\\""
  else if c = '\\' then "\\\\"
  else if c = '\n' then "\\n"
  else if c = '\r' then "\\r"
  else if c = '\t' then "\\t"
  else if c = '<' then "\\u003c"
  else if c = '>' then "\\u003e"
  else if c = '&' then "\\u0026"
  else if c.toNat < 0x20 then
    "\\u00" ++ ⟨[hexDigit (c.toNat / 16), hexDigit (c.toNat % 16)]⟩
  else if c.toNat = 0x2028 then "\\u2028"
  else if c.toNat = 0x2029 then "\\u2029"
  else ⟨[c]⟩

def jsonString (s : String) : String :=
  "\"" ++ String.join (s.data.map jsonEscapeChar) ++ "\""

def jvalRender : JVal → String
  | .str s => jsonString s
  | .int n => toString n

/-- Insertion sort by key; Go `json.Marshal` emits map keys in sorted order
(byte order agrees with code-point order on UTF-8). -/
def sortPairsInsert (p : String × JVal) :
    List (String × JVal) → List (String × JVal)
  | [] => [p]
  | q :: rest => if p.1 < q.1 then p :: q :: rest else q :: sortPairsInsert p rest

def sortPairs : List (String × JVal) → List (String × JVal)
  | [] => []
  | p :: rest => sortPairsInsert p (sortPairs rest)

/-- Go `json.Marshal` of the argument map (xml_parser.go:91). -/
def marshalArgs (m : List (String × JVal)) : String :=
  "\x7b" ++
    String.intercalate ","
      ((sortPairs m).map (fun p => jsonString p.1 ++ ":" ++ jvalRender p.2)) ++
    "\x7d"

/-! ## The extractor `parseToolCallFromXML` (xml_parser.go:19-103) -/

/-- The structured result of extraction: tool name and argument map, before
JSON serialization. -/
structure ParsedCall where
  toolName : String
  args : List (String × JVal)
deriving Repr, DecidableEq

/-- Lines 19-88 of xml_parser.go over the character list of the response:
the `strings.Contains` guard, outer block extraction, tool-name extraction,
arguments block extraction, and the tag-pair loop. -/
def parseArgsMapCore (r : List Char) : Option ParsedCall :=
  if containsSub fcOpen r then
    match extractBetween fcOpen fcClose r with
    | none => none
    | some funcCallContent =>
      match findToolName funcCallContent with
      | none => none
      | some nameRaw =>
        match extractBetween argOpen argClose funcCallContent with
        | none => none
        | some argsContent =>
          some ⟨goTrimSpace ⟨nameRaw⟩, processTags (scanTags argsContent)⟩
  else none

def parseArgsMap (response : String) : Option ParsedCall :=
  parseArgsMapCore response.data

/-- Go `ToolCallInfo`: tool name and arguments as a JSON string. -/
structure ToolCallInfo where
  toolName : String
  arguments : String
deriving Repr, DecidableEq

/-- `parseToolCallFromXML` (xml_parser.go:19-103).  `json.Marshal` of a
string/int-valued map cannot fail, so the serialization error branch at line
92-95 is unreachable and the function is total. -/
def parseToolCallFromXML (response : String) : Option ToolCallInfo :=
  (parseArgsMap response).map (fun p => ⟨p.toolName, marshalArgs p.args⟩)

/-! ## Reply assembly (`buildFinalReply`, xml_parser.go:106-121) -/

/-- Go `funcCallRegex.ReplaceAllString(llmResponse, "")`: remove every
(leftmost, non-overlapping) `<func_call>...</func_call>` block. -/
def removeFCAux : Nat → List Char → List Char
  | 0, s => s
  | fuel + 1, s =>
    match findSub fcOpen s with
    | none => s
    | some (pre, rest) =>
      match findSub fcClose rest with
      | none => s
      | some (_, rest2) => pre ++ removeFCAux fuel rest2

def removeFuncCallBlocks (s : String) : String :=
  ⟨removeFCAux s.data.length s.data⟩

/-- `buildFinalReply` (xml_parser.go:106-121). -/
def buildFinalReply (llmResponse toolResult : String) : String :=
  let cleanResponse := goTrimSpace (removeFuncCallBlocks llmResponse)
  if cleanResponse = "" then toolResult
  else cleanResponse ++ "\n\n" ++ toolResult

/-! ## The chat handler `HandleChat` (xml_parser.go:176-339) -/

structure HistoryMessage where
  role : String
  content : String
deriving Repr, DecidableEq

structure Message where
  role : String
  content : String
deriving Repr, DecidableEq

/-- A retrieved knowledge document (`rag.Document`): its text and its
`metadata["category"]` entry when that is present and a string. -/
structure Document where
  text : String
  category : Option String
deriving Repr, DecidableEq

/-- The fixed system preamble (xml_parser.go:196-247). -/
def systemPrompt : String :=
  "你是一个智能客服助手,负责帮助用户完成订单操作和解答问题。\n\n你的能力:\n1. 搜索商品 (search_product) - 当用户询问商品信息、价格、库存时\n2. 创建订单 (create_order) - 当用户提供商品名称、数量、姓名、电话、地址时\n3. 查询订单 (query_order) - 当用户询问订单状态时\n4. 取消订单 (cancel_order) - 当用户要求取消订单时\n5. 回答售后问题\n\n⚠️ 工具调用格式规范:\n当需要调用工具时,必须使用以下 XML 格式输出,参数名称必须精确匹配:\n\n搜索商品示例:\n<func_call>\n<tool_name>search_product</tool_name>\n<arguments>\n<keyword>山地自行车</keyword>\n</arguments>\n</func_call>\n\n创建订单示例:\n<func_call>\n<tool_name>create_order</tool_name>\n<arguments>\n<productName>山地自行车</productName>\n<quantity>2</quantity>\n<customerName>张三</customerName>\n<customerPhone>13800138000</customerPhone>\n<shippingAddress>北京市朝阳区建国路1号</shippingAddress>\n</arguments>\n</func_call>\n\n查询订单示例:\n<func_call>\n<tool_name>query_order</tool_name>\n<arguments>\n<orderNumber>ORD-1234567890</orderNumber>\n</arguments>\n</func_call>\n\n取消订单示例:\n<func_call>\n<tool_name>cancel_order</tool_name>\n<arguments>\n<orderNumber>ORD-1234567890</orderNumber>\n</arguments>\n</func_call>\n\n重要:\n- 必须严格按照上述 XML 格式输出\n- 在 <func_call> 标签前后可以添加说明文字\n- 如果信息不完整,先询问用户,不要调用工具"

/-- `rag.FormatContext` body loop (chroma_client.go:274-280): index printed
from 1, category line only when the metadata entry exists. -/
def formatDocs : Nat → List Document → String
  | _, [] => ""
  | i, d :: rest =>
    toString (i + 1) ++ ". " ++ d.text ++ "\n" ++
      (match d.category with
       | some c => "   分类: " ++ c ++ "\n"
       | none => "") ++
      formatDocs (i + 1) rest

/-- `rag.FormatContext` (chroma_client.go:269-283). -/
def FormatContext (documents : List Document) : String :=
  if documents.isEmpty then ""
  else "以下是相关的知识库信息:\n\n" ++ formatDocs 0 documents

/-- Message assembly of `HandleChat` (xml_parser.go:193-291): system preamble,
optional knowledge context, history with the current user turn skipped, then
the current message. -/
def handleChatMessages (docs : List Document) (history : List HistoryMessage)
    (message : String) : List Message :=
  let messages := [Message.mk "system" systemPrompt]
  let messages :=
    if docs.isEmpty then messages
    else messages ++ [Message.mk "system" (FormatContext docs)]
  let messages := messages ++
    (history.filter
        (fun h => !(h.content == message && h.role == "user"))).map
      (fun h => Message.mk h.role h.content)
  messages ++ [Message.mk "user" message]

structure ChatResponse where
  reply : String
  sessionId : String
deriving Repr, DecidableEq

/-- Steps 4-5 of `HandleChat` (xml_parser.go:305-339), given the LLM response
text: HTTP status and JSON body.  `execute` abstracts
`h.toolExecutor.Execute`. -/
def handleChatReply (execute : String → String → Except String String)
    (responseText sessionId : String) : Nat × ChatResponse :=
  match parseToolCallFromXML responseText with
  | some toolCall =>
    match execute toolCall.toolName toolCall.arguments with
    | .error e => (200, ⟨"抱歉，订单处理失败: " ++ e, sessionId⟩)
    | .ok result => (200, ⟨buildFinalReply responseText result, sessionId⟩)
  | none => (200, ⟨responseText, sessionId⟩)

/-! ## The MCP gateway client (mcp/client.go) -/

structure MCPError where
  code : Int
  message : String
deriving Repr, DecidableEq

structure MCPContent where
  type : String
  text : String
deriving Repr, DecidableEq

structure MCPToolResult where
  content : List MCPContent
deriving Repr, DecidableEq

/-- An MCP response as seen by `CallTool`: `result` is `none` when the peer
sent no result payload (in which case `json.Unmarshal` of the nil raw message
fails). -/
structure MCPResponseData where
  id : Int
  result : Option MCPToolResult
  error : Option MCPError
deriving Repr, DecidableEq

/-- Response processing of `CallTool` (client.go:190-206): a peer error
surfaces as an error; a missing result fails to deserialize; an empty content
list is an error; otherwise the text of the first content block is returned. -/
def callToolProcess (resp : MCPResponseData) : Except String String :=
  match resp.error with
  | some e => .error ("工具调用失败: " ++ e.message)
  | none =>
    match resp.result with
    | none => .error "解析工具结果失败: unexpected end of JSON input"
    | some toolResult =>
      match toolResult.content with
      | [] => .error "工具返回空结果"
      | c :: _ => .ok c.text

/-! ## Gateway calls: unsynchronized id allocation, then the lock-protected
write/read exchange (client.go:174-243)

`CallTool` builds its request with `ID: c.nextID()` BEFORE `sendRequest`
acquires the client mutex, and `nextID` performs an unsynchronized
`c.msgID++; return c.msgID` on the shared client (client.go:175-182,
240-243).  A call is therefore modeled as the per-thread event sequence
readId → writeId → acquire → send → recv → release, where the two allocation
steps are the read of the shared counter and the unguarded write-back of its
successor (the non-atomic read-modify-write of `msgID++`), and only `acquire`
is guarded by the lock.  Interleavings of several callers are traces of the
guarded step relation. -/

inductive GEvent where
  | readId (t : Nat)
  | writeId (t : Nat)
  | acquire (t : Nat)
  | send (t : Nat)
  | recv (t : Nat)
  | release (t : Nat)
deriving Repr, DecidableEq

/-- Shared gateway-client state plus per-thread control data: `msgID` is the
shared sequence counter, `reg t` the counter value thread `t` read during its
allocation, `tid t` the sequence id thread `t` allocated (valid once its
write-back happened). -/
structure GState where
  msgID : Nat
  lock : Option Nat
  pc : Nat → Nat
  reg : Nat → Nat
  tid : Nat → Nat

/-- Guarded small-step semantics of one gateway call per thread:
pc 0 = before the call, 1 = counter read, 2 = id written back (allocation
done), 3 = lock held, 4 = request written, 5 = response read, 6 = done.
The id allocation steps are unguarded, as in the source. -/
def gstep (s : GState) : GEvent → Option GState
  | .readId t =>
    if s.pc t = 0 then
      some ⟨s.msgID, s.lock, fun w => if w = t then 1 else s.pc w,
        fun w => if w = t then s.msgID else s.reg w, s.tid⟩
    else none
  | .writeId t =>
    if s.pc t = 1 then
      some ⟨s.reg t + 1, s.lock, fun w => if w = t then 2 else s.pc w,
        s.reg, fun w => if w = t then s.reg t + 1 else s.tid w⟩
    else none
  | .acquire t =>
    if s.pc t = 2 ∧ s.lock = none then
      some ⟨s.msgID, some t, fun w => if w = t then 3 else s.pc w, s.reg, s.tid⟩
    else none
  | .send t =>
    if s.pc t = 3 then
      some ⟨s.msgID, s.lock, fun w => if w = t then 4 else s.pc w, s.reg, s.tid⟩
    else none
  | .recv t =>
    if s.pc t = 4 then
      some ⟨s.msgID, s.lock, fun w => if w = t then 5 else s.pc w, s.reg, s.tid⟩
    else none
  | .release t =>
    if s.pc t = 5 then
      some ⟨s.msgID, none, fun w => if w = t then 6 else s.pc w, s.reg, s.tid⟩
    else none

def grun : GState → List GEvent → Option GState
  | s, [] => some s
  | s, e :: rest =>
    match gstep s e with
    | none => none
    | some s' => grun s' rest

structure LLMToolCallFunction where
  name : String
  arguments : String
deriving Repr, DecidableEq

structure LLMToolCall where
  id : String
  type : String
  function : LLMToolCallFunction
deriving Repr, DecidableEq

structure LLMChoiceMessage where
  content : String
  toolCalls : List LLMToolCall
deriving Repr, DecidableEq

structure LLMChoice where
  finishReason : String
  message : LLMChoiceMessage
deriving Repr, DecidableEq

structure LLMOutput where
  text : String
  finishReason : String
  choices : List LLMChoice
deriving Repr, DecidableEq

structure LLMChatResponse where
  output : LLMOutput
deriving Repr, DecidableEq

/-- `ShouldCallTool` (llm/client.go:308-326). -/
def ShouldCallTool (resp : LLMChatResponse) : Bool :=
  if resp.output.text ≠ "" then false
  else
    match resp.output.choices with
    | [] => false
    | c :: _ => containsSub "tool_calls".data c.finishReason.data

/-- `GetToolCalls` (llm/client.go:289-305). -/
def GetToolCalls (resp : LLMChatResponse) : List LLMToolCall :=
  if resp.output.text ≠ "" then []
  else
    match resp.output.choices with
    | [] => []
    | c :: _ => c.message.toolCalls

/-- `GetTextResponse` (llm/client.go:263-286). -/
def GetTextResponse (resp : LLMChatResponse) : String :=
  if resp.output.text ≠ "" then resp.output.text
  else
    match resp.output.choices with
    | [] => ""
    | c :: _ => c.message.content

/-! ## The iterative tool-calling loop (`chatWithToolCalling`,
xml_parser.go:342-403) -/

/-- Content of one tool-result message (xml_parser.go:366-391): the result on
success, the failure text on error; `prettify` abstracts the JSON
re-indentation applied when the content is valid JSON (line 383-389), and is
the identity otherwise. -/
def toolResultContent (prettify : String → String)
    (execute : String → String → Except String String)
    (tc : LLMToolCall) : String :=
  prettify
    (match execute tc.function.name tc.function.arguments with
     | .ok r => r
     | .error e => "工具执行失败: " ++ e)

/-- The tool-calling loop with its remaining-iteration fuel; also counts the
number of LLM rounds actually performed.  `llmChat` abstracts
`h.llmClient.Chat` (which may fail), `execute` the tool executor. -/
def chatLoopAux (llmChat : List Message → Except String LLMChatResponse)
    (execute : String → String → Except String String)
    (prettify : String → String) :
    Nat → List Message → Except String String × Nat
  | 0, _ => (.ok "抱歉,处理您的请求时遇到了问题,请稍后再试。", 0)
  | n + 1, msgs =>
    match llmChat msgs with
    | .error e => (.error e, 1)
    | .ok resp =>
      if ShouldCallTool resp then
        let next := msgs ++ [Message.mk "assistant" ""] ++
          (GetToolCalls resp).map
            (fun tc => Message.mk "tool" (toolResultContent prettify execute tc))
        let r := chatLoopAux llmChat execute prettify n next
        (r.1, r.2 + 1)
      else (.ok (GetTextResponse resp), 1)

/-- `chatWithToolCalling` (xml_parser.go:342-403): `maxIterations = 5`. -/
def chatWithToolCalling (llmChat : List Message → Except String LLMChatResponse)
    (execute : String → String → Except String String)
    (prettify : String → String) (messages : List Message) :
    Except String String :=
  (chatLoopAux llmChat execute prettify 5 messages).1

/-- Number of LLM rounds performed by `chatWithToolCalling`. -/
def chatRounds (llmChat : List Message → Except String LLMChatResponse)
    (execute : String → String → Except String String)
    (prettify : String → String) (messages : List Message) : Nat :=
  (chatLoopAux llmChat execute prettify 5 messages).2

/-! ## Rendered well-formed directives

`renderDirective` produces the directive block in the shape documented in the
system prompt; entries carry separate open and close tag names so that
mismatched pairs can be expressed. -/

def renderEntry (e : String × String × String) : String :=
  "<" ++ e.1 ++ ">" ++ e.2.1 ++ "</" ++ e.2.2 ++ ">" ++ "\n"

def renderEntries : List (String × String × String) → String
  | [] => ""
  | e :: rest => renderEntry e ++ renderEntries rest

def renderDirective (name : String)
    (entries : List (String × String × String)) : String :=
  "<func_call>" ++ "\n" ++ "<tool_name>" ++ name ++ "</tool_name>" ++ "\n" ++
    "<arguments>" ++ "\n" ++ renderEntries entries ++ "</arguments>" ++ "\n" ++
    "</func_call>"

/-- A nonempty string of regex word characters. -/
@[reducible] def WordStr (s : String) : Prop :=
  s.data ≠ [] ∧ ∀ a ∈ s.data, isWordChar a = true

/-- Well-formedness of one rendered `<open>value</close>` entry: word-shaped
tag names, a close tag that does not fabricate one of the structural closing
markers, and a value without `<`. -/
@[reducible] def GoodEntry (e : String × String × String) : Prop :=
  WordStr e.1 ∧ WordStr e.2.2 ∧ e.2.2 ≠ "arguments" ∧ e.2.2 ≠ "func_call" ∧
    '<' ∉ e.2.1.data

def toTag (e : String × String × String) : TagMatch :=
  ⟨e.1.data, e.2.1.data, e.2.2.data⟩

/-- Insertion of one key/value pair with the trimmed, policy-typed value. -/
def insertPair (m : List (String × JVal)) (kv : String × String) :
    List (String × JVal) :=
  mapSet m kv.1 (coerceValue kv.1 (goTrimSpace kv.2))

/-- The specification-level argument mapping: keys inserted in order with
their trimmed, policy-typed values; a later occurrence of a key overwrites the
earlier one. -/
def expectedArgs (pairs : List (String × String)) : List (String × JVal) :=
  pairs.foldl insertPair []

/-- `Skips pat x` says that searching for `pat` in `x ++ y` always passes over
`x` entirely. -/
def Skips (pat x : List Char) : Prop :=
  ∀ y, findSub pat (x ++ y) =
    (findSub pat y).map (fun pq => (x ++ pq.1, pq.2))

/-- There is a position `j` inside `x` at which `pat` and `x` disagree, so a
match of `pat` starting at position 0 is impossible no matter what follows
`x`. -/
def mismatchIn (pat x : List Char) : Bool :=
  (List.range x.length).any (fun j =>
    match pat.get? j, x.get? j with
    | some p, some c => decide (p ≠ c)
    | _, _ => false)

/-- Every suffix of `x` disagrees with `pat` somewhere inside `x`: `pat`
cannot match starting at any position of `x`, regardless of what follows. -/
def noCrossMatch (pat : List Char) : List Char → Bool
  | [] => true
  | c :: rest => mismatchIn pat (c :: rest) && noCrossMatch pat rest

/-- Well-formedness of one key/value pair of a directive: word-shaped key
that does not fabricate a structural closing marker, value without `<`. -/
@[reducible] def GoodPair (kv : String × String) : Prop :=
  WordStr kv.1 ∧ kv.1 ≠ "arguments" ∧ kv.1 ≠ "func_call" ∧ '<' ∉ kv.2.data

theorem findSub_eq_some {pat : List Char} :
    ∀ {s a b : List Char}, findSub pat s = some (a, b) → s = a ++ pat ++ b := by
  intro s
  induction s with
  | nil =>
    intro a b h
    simp only [findSub] at h
    split at h
    · simp only [Option.some.injEq, Prod.mk.injEq] at h
      obtain ⟨ha, hb⟩ := h
      subst ha; subst hb
      rename_i hp
      rw [List.isEmpty_iff] at hp
      simp [hp]
    · exact absurd h (by simp)
  | cons c rest ih =>
    intro a b h
    simp only [findSub] at h
    split at h
    · rename_i hp
      rw [List.isPrefixOf_iff_prefix] at hp
      obtain ⟨t, ht⟩ := hp
      simp only [Option.some.injEq, Prod.mk.injEq] at h
      obtain ⟨ha, hb⟩ := h
      subst ha; subst hb
      rw [← ht, List.drop_left]
      simp
    · revert h
      cases hrec : findSub pat rest with
      | none => intro h; exact absurd h (by simp)
      | some pq =>
        intro h
        simp only [Option.some.injEq, Prod.mk.injEq] at h
        obtain ⟨ha, hb⟩ := h
        subst ha; subst hb
        have := ih hrec
        simp [this]

theorem findSub_self_append (pat b : List Char) :
    findSub pat (pat ++ b) = some ([], b) := by
  cases pat with
  | nil =>
    cases b with
    | nil => simp [findSub]
    | cons c r => simp [findSub, List.isPrefixOf]
  | cons p pt =>
    have hpre : (p :: pt).isPrefixOf (p :: (pt ++ b)) = true := by
      rw [List.isPrefixOf_iff_prefix]
      exact List.prefix_append _ _
    simp only [List.cons_append, findSub, hpre, if_true]
    simp [List.drop_left ((p :: pt).drop 0)]

theorem findSub_cons_skip {pat : List Char} {c : Char} {s : List Char}
    (h : pat.isPrefixOf (c :: s) = false) :
    findSub pat (c :: s) = (findSub pat s).map (fun pq => (c :: pq.1, pq.2)) := by
  simp only [findSub, h]
  cases findSub pat s with
  | none => simp
  | some pq => cases pq; simp

theorem findSub_isSome_append (pat a b : List Char) :
    (findSub pat (a ++ pat ++ b)).isSome = true := by
  rw [List.append_assoc]
  induction a with
  | nil => rw [List.nil_append, findSub_self_append]; rfl
  | cons c a' ih =>
    rw [List.cons_append]
    by_cases hpre : pat.isPrefixOf (c :: (a' ++ (pat ++ b))) = true
    · simp only [findSub, hpre, if_true]
      simp
    · rw [findSub_cons_skip (Bool.eq_false_iff.mpr hpre)]
      rw [Option.isSome_iff_exists] at ih ⊢
      obtain ⟨pq, hpq⟩ := ih
      exact ⟨_, by rw [hpq]; rfl⟩

theorem containsSub_iff (pat s : List Char) :
    containsSub pat s = true ↔ ∃ a b, s = a ++ pat ++ b := by
  constructor
  · intro h
    rw [containsSub, Option.isSome_iff_exists] at h
    obtain ⟨pq, hpq⟩ := h
    exact ⟨pq.1, pq.2, findSub_eq_some (by rw [hpq])⟩
  · rintro ⟨a, b, rfl⟩
    exact findSub_isSome_append pat a b

theorem findSub_eq_none_of_not_contains {pat s : List Char}
    (h : containsSub pat s = false) : findSub pat s = none := by
  rw [containsSub] at h
  cases hfs : findSub pat s with
  | none => rfl
  | some pq => rw [hfs] at h; simp at h

theorem skips_nil (pat : List Char) : Skips pat [] := by
  intro y
  cases h : findSub pat y <;> simp [h]

theorem skips_append {pat x x' : List Char} (h1 : Skips pat x)
    (h2 : Skips pat x') : Skips pat (x ++ x') := by
  intro y
  rw [List.append_assoc, h1 (x' ++ y), h2 y]
  cases findSub pat y <;> simp

theorem skips_cons {pat : List Char} {c : Char} {x : List Char}
    (hc : ∀ y, pat.isPrefixOf (c :: (x ++ y)) = false)
    (hx : Skips pat x) : Skips pat (c :: x) := by
  intro y
  have hs : (c :: x) ++ y = c :: (x ++ y) := by simp
  rw [hs, findSub_cons_skip (hc y), hx y]
  cases findSub pat y <;> simp

theorem not_prefixOf_head {p c : Char} {pt s : List Char} (h : p ≠ c) :
    (p :: pt).isPrefixOf (c :: s) = false := by
  simp [List.isPrefixOf, h]

theorem skips_of_ne_head {pat : List Char} {hc : Char} {pt x : List Char}
    (hpat : pat = hc :: pt) (hx : ∀ a ∈ x, a ≠ hc) : Skips pat x := by
  induction x with
  | nil => exact skips_nil pat
  | cons a x' ih =>
    have ha : a ≠ hc := hx a (by simp)
    refine skips_cons (fun y => ?_) (ih (fun b hb => hx b (by simp [hb])))
    rw [hpat]
    exact not_prefixOf_head (fun he => ha he.symm)

theorem not_prefixOf_of_mismatchIn {pat x : List Char}
    (h : mismatchIn pat x = true) (y : List Char) :
    pat.isPrefixOf (x ++ y) = false := by
  rw [mismatchIn, List.any_eq_true] at h
  obtain ⟨j, hj, hf⟩ := h
  rw [List.mem_range] at hj
  by_contra hcon
  rw [Bool.not_eq_false, List.isPrefixOf_iff_prefix] at hcon
  obtain ⟨t, ht⟩ := hcon
  revert hf
  cases hp : pat.get? j with
  | none => simp
  | some p =>
    cases hx : x.get? j with
    | none => simp
    | some c =>
      simp only [decide_eq_true_eq]
      intro hne
      apply hne
      obtain ⟨hjp, -⟩ := List.get?_eq_some.mp hp
      have h1 : (pat ++ t).get? j = some p := by rw [List.get?_append hjp]; exact hp
      have h2 : (x ++ y).get? j = some c := by rw [List.get?_append hj]; exact hx
      rw [ht] at h1
      rw [h1] at h2
      exact Option.some.inj h2

theorem skips_of_noCrossMatch {pat : List Char} :
    ∀ {x : List Char}, noCrossMatch pat x = true → Skips pat x
  | [], _ => skips_nil pat
  | c :: rest, h => by
    rw [noCrossMatch, Bool.and_eq_true] at h
    refine skips_cons (fun y => ?_) (skips_of_noCrossMatch h.2)
    have hm := not_prefixOf_of_mismatchIn h.1 y
    simpa using hm

theorem skips_findSub {pat x : List Char} (h : Skips pat x) (y : List Char) :
    findSub pat (x ++ pat ++ y) = some (x, y) := by
  rw [List.append_assoc, h (pat ++ y), findSub_self_append]
  simp

theorem word_close_prefix_eq :
    ∀ (w c r : List Char),
      (∀ a ∈ w, isWordChar a = true) → (∀ a ∈ c, isWordChar a = true) →
      (w ++ ['>']).isPrefixOf (c ++ '>' :: r) = true → w = c
  | [], [], _, _, _, _ => rfl
  | [], b :: c', r, _, hc, hp => by
    exfalso
    simp only [List.nil_append, List.cons_append, List.isPrefixOf,
      Bool.and_eq_true, beq_iff_eq] at hp
    have hw := hc b (by simp)
    rw [← hp.1] at hw
    exact absurd hw (by decide)
  | a :: w', [], r, hw, _, hp => by
    exfalso
    simp only [List.cons_append, List.nil_append, List.isPrefixOf,
      Bool.and_eq_true, beq_iff_eq] at hp
    have hww := hw a (by simp)
    rw [hp.1] at hww
    exact absurd hww (by decide)
  | a :: w', b :: c', r, hw, hc, hp => by
    simp only [List.cons_append, List.isPrefixOf, Bool.and_eq_true,
      beq_iff_eq] at hp
    have heq := word_close_prefix_eq w' c' r (fun x hx => hw x (by simp [hx]))
      (fun x hx => hc x (by simp [hx])) hp.2
    rw [hp.1, heq]

theorem wordChar_ne_lt {a : Char} (h : isWordChar a = true) : a ≠ '<' := by
  intro he
  rw [he] at h
  exact absurd h (by decide)

theorem wordChar_ne_slash {a : Char} (h : isWordChar a = true) : a ≠ '/' := by
  intro he
  rw [he] at h
  exact absurd h (by decide)

theorem not_prefixOf_second {x p2 c2 : Char} {pr s : List Char} (h : p2 ≠ c2) :
    (x :: p2 :: pr).isPrefixOf (x :: c2 :: s) = false := by
  simp [List.isPrefixOf, h]

/-- A rendered entry is passed over when searching for a closing marker
`</pw>` whose tag word `pw` differs from the entry's close tag. -/
theorem skips_entry {pw : List Char} (hpw : ∀ a ∈ pw, isWordChar a = true)
    {o v c : List Char}
    (how : ∀ a ∈ o, isWordChar a = true)
    (hv : '<' ∉ v)
    (hcw : ∀ a ∈ c, isWordChar a = true)
    (hne : c ≠ pw) :
    Skips ('<' :: '/' :: (pw ++ ['>']))
      ('<' :: (o ++ '>' :: (v ++ '<' :: '/' :: (c ++ '>' :: ['\n'])))) := by
  have hs5 : Skips ('<' :: '/' :: (pw ++ ['>'])) (c ++ '>' :: ['\n']) := by
    refine skips_of_ne_head rfl (fun a ha => ?_)
    rw [List.mem_append] at ha
    rcases ha with ha | ha
    · exact wordChar_ne_lt (hcw a ha)
    · simp only [List.mem_cons, List.not_mem_nil, or_false] at ha
      rcases ha with rfl | rfl <;> decide
  have hs4 : Skips ('<' :: '/' :: (pw ++ ['>'])) ('/' :: (c ++ '>' :: ['\n'])) :=
    skips_cons (fun y => not_prefixOf_head (by decide)) hs5
  have hs3 : Skips ('<' :: '/' :: (pw ++ ['>']))
      ('<' :: '/' :: (c ++ '>' :: ['\n'])) := by
    refine skips_cons (fun y => ?_) hs4
    by_contra hcon
    rw [Bool.not_eq_false] at hcon
    have hshape : ('/' :: (c ++ '>' :: ['\n'])) ++ y = '/' :: (c ++ '>' :: '\n' :: y) := by
      simp
    rw [hshape] at hcon
    simp only [List.isPrefixOf, Bool.and_eq_true, beq_iff_eq, eq_self_iff_true,
      true_and] at hcon
    exact hne (word_close_prefix_eq pw c ('\n' :: y) hpw hcw hcon).symm
  have hs2 : Skips ('<' :: '/' :: (pw ++ ['>']))
      (v ++ '<' :: '/' :: (c ++ '>' :: ['\n'])) := by
    refine skips_append (skips_of_ne_head rfl (fun a ha => ?_)) hs3
    intro he
    exact hv (he ▸ ha)
  have hs1 : Skips ('<' :: '/' :: (pw ++ ['>']))
      ('>' :: (v ++ '<' :: '/' :: (c ++ '>' :: ['\n']))) :=
    skips_cons (fun y => not_prefixOf_head (by decide)) hs2
  have hs0 : Skips ('<' :: '/' :: (pw ++ ['>']))
      (o ++ '>' :: (v ++ '<' :: '/' :: (c ++ '>' :: ['\n']))) :=
    skips_append (skips_of_ne_head rfl (fun a ha => wordChar_ne_lt (how a ha))) hs1
  refine skips_cons (fun y => ?_) hs0
  cases o with
  | nil =>
    have hshape : (([] : List Char) ++ '>' :: (v ++ '<' :: '/' :: (c ++ '>' :: ['\n']))) ++ y
        = '>' :: ((v ++ '<' :: '/' :: (c ++ '>' :: ['\n'])) ++ y) := by simp
    rw [hshape]
    exact not_prefixOf_second (by decide)
  | cons a o' =>
    have ha : ('/' : Char) ≠ a := fun he =>
      wordChar_ne_slash (how a (by simp)) he.symm
    have hshape : ((a :: o') ++ '>' :: (v ++ '<' :: '/' :: (c ++ '>' :: ['\n']))) ++ y
        = a :: ((o' ++ '>' :: (v ++ '<' :: '/' :: (c ++ '>' :: ['\n']))) ++ y) := by simp
    rw [hshape]
    exact not_prefixOf_second ha

theorem renderEntry_data (e : String × String × String) :
    (renderEntry e).data =
      '<' :: (e.1.data ++ '>' :: (e.2.1.data ++ '<' :: '/' ::
        (e.2.2.data ++ '>' :: ['\n']))) := by
  have h1 : "<".data = ['<'] := rfl
  have h2 : ">".data = ['>'] := rfl
  have h3 : "</".data = ['<', '/'] := rfl
  have h4 : "\n".data = ['\n'] := rfl
  simp [renderEntry, String.data_append, h1, h2, h3, h4]

theorem ne_of_string_ne {s t : String} (h : s ≠ t) : s.data ≠ t.data :=
  fun hd => h (String.ext hd)

theorem skips_renderEntries {pwStr : String}
    (hpw : ∀ a ∈ pwStr.data, isWordChar a = true)
    {entries : List (String × String × String)}
    (h : ∀ e ∈ entries, GoodEntry e ∧ e.2.2 ≠ pwStr) :
    Skips ('<' :: '/' :: (pwStr.data ++ ['>'])) (renderEntries entries).data := by
  induction entries with
  | nil => simpa [renderEntries] using skips_nil ('<' :: '/' :: (pwStr.data ++ ['>']))
  | cons e rest ih =>
    obtain ⟨hgood, hne⟩ := h e (by simp)
    have hdata : (renderEntries (e :: rest)).data =
        (renderEntry e).data ++ (renderEntries rest).data := by
      rw [renderEntries, String.data_append]
    rw [hdata, renderEntry_data]
    refine skips_append ?_ (ih (fun x hx => h x (by simp [hx])))
    exact skips_entry hpw hgood.1.2 hgood.2.2.2.2 hgood.2.1.2
      (ne_of_string_ne hne)

theorem containsSub_append_right {pat content rest : List Char}
    (h : containsSub pat content = true) :
    containsSub pat (content ++ rest) = true := by
  rw [containsSub_iff] at h ⊢
  obtain ⟨a, b, rfl⟩ := h
  exact ⟨a, b ++ rest, by simp⟩

theorem scanToClose_through {nm : List Char} (h1 : '<' ∉ nm) (h2 : '\n' ∉ nm)
    (r : List Char) : scanToClose (nm ++ (tnClose ++ r)) = some nm := by
  induction nm with
  | nil =>
    rw [List.nil_append]
    have hsh : tnClose ++ r = '<' :: ("/tool_name>".data ++ r) := rfl
    have hpre : tnClose.isPrefixOf (tnClose ++ r) = true := by
      rw [List.isPrefixOf_iff_prefix]; exact List.prefix_append _ _
    rw [hsh] at hpre ⊢
    simp only [scanToClose, hpre, if_true]
  | cons a nm' ih =>
    have ha1 : a ≠ '<' := fun he => h1 (by simp [he])
    have ha2 : a ≠ '\n' := fun he => h2 (by simp [he])
    have hpre : tnClose.isPrefixOf (a :: (nm' ++ (tnClose ++ r))) = false := by
      have hsh : tnClose = '<' :: "/tool_name>".data := rfl
      rw [hsh]
      exact not_prefixOf_head (fun he => ha1 he.symm)
    have hsh2 : (a :: nm') ++ (tnClose ++ r) = a :: (nm' ++ (tnClose ++ r)) := by
      simp
    rw [hsh2]
    simp only [scanToClose, hpre, Bool.false_eq_true, if_false, ha2, ite_false]
    rw [ih (fun hx => h1 (by simp [hx])) (fun hx => h2 (by simp [hx]))]
    rfl

theorem findToolName_step (c : Char) (rest : List Char) :
    findToolName (c :: rest) =
      if tnOpen.isPrefixOf (c :: rest) then
        match scanToClose ((c :: rest).drop tnOpen.length) with
        | some content => some content
        | none => findToolName rest
      else findToolName rest := by
  simp only [findToolName]

theorem findToolName_at {nm r : List Char} (h1 : '<' ∉ nm) (h2 : '\n' ∉ nm) :
    findToolName ('\n' :: (tnOpen ++ (nm ++ (tnClose ++ r)))) = some nm := by
  have hpre0 : tnOpen.isPrefixOf ('\n' :: (tnOpen ++ (nm ++ (tnClose ++ r)))) = false := by
    have hsh : tnOpen = '<' :: "tool_name>".data := rfl
    rw [hsh]
    exact not_prefixOf_head (by decide)
  rw [findToolName_step, hpre0]
  simp only [Bool.false_eq_true, if_false]
  have hsh2 : tnOpen ++ (nm ++ (tnClose ++ r)) =
      '<' :: ("tool_name>".data ++ (nm ++ (tnClose ++ r))) := rfl
  rw [hsh2, findToolName_step, ← hsh2]
  have hpre1 : tnOpen.isPrefixOf (tnOpen ++ (nm ++ (tnClose ++ r))) = true := by
    rw [List.isPrefixOf_iff_prefix]
    exact List.prefix_append _ _
  rw [hpre1]
  simp only [if_true]
  rw [List.drop_left, scanToClose_through h1 h2 r]

theorem findToolName_some_contains :
    ∀ {s nm : List Char}, findToolName s = some nm → containsSub tnOpen s = true := by
  intro s
  induction s with
  | nil => intro nm h; simp [findToolName] at h
  | cons c rest ih =>
    intro nm h
    simp only [findToolName] at h
    split at h
    · rename_i hpre
      rw [List.isPrefixOf_iff_prefix] at hpre
      obtain ⟨t, ht⟩ := hpre
      rw [containsSub_iff]
      exact ⟨[], t, by simp [ht]⟩
    · have := ih h
      rw [containsSub_iff] at this ⊢
      obtain ⟨a, b, hab⟩ := this
      exact ⟨c :: a, b, by simp [hab]⟩

theorem length_dropWhile_le (p : Char → Bool) :
    ∀ l : List Char, (l.dropWhile p).length ≤ l.length := by
  intro l
  induction l with
  | nil => simp
  | cons c rest ih =>
    by_cases hp : p c = true
    · rw [List.dropWhile_cons, if_pos hp]
      exact le_trans ih (by simp)
    · rw [List.dropWhile_cons, if_neg hp]

theorem matchTagAt_some {s : List Char} {m : TagMatch} {rem : List Char}
    (h : matchTagAt s = some (m, rem)) :
    s = '<' :: (m.openName ++ '>' :: (m.value ++ '<' :: '/' ::
      (m.closeName ++ '>' :: rem))) := by
  cases s with
  | nil => simp [matchTagAt] at h
  | cons c0 rest =>
    simp only [matchTagAt] at h
    by_cases hc0 : c0 = '<'
    case neg => rw [if_neg hc0] at h; exact absurd h (by simp)
    rw [if_pos hc0] at h
    subst hc0
    by_cases hA : (rest.takeWhile isWordChar).isEmpty
    case pos => rw [if_pos hA] at h; exact absurd h (by simp)
    rw [if_neg hA] at h
    cases hB : rest.dropWhile isWordChar with
    | nil => rw [hB] at h; exact absurd h (by simp)
    | cons c1 rest2 =>
      rw [hB] at h
      simp only at h
      by_cases hc1 : c1 = '>'
      case neg => rw [if_neg hc1] at h; exact absurd h (by simp)
      rw [if_pos hc1] at h
      subst hc1
      cases hC : rest2.dropWhile (fun c => decide (c ≠ '<')) with
      | nil => rw [hC] at h; exact absurd h (by simp)
      | cons c2 rest3 =>
        cases rest3 with
        | nil => rw [hC] at h; exact absurd h (by simp)
        | cons c3 rest4 =>
          rw [hC] at h
          simp only at h
          by_cases hc23 : c2 = '<' ∧ c3 = '/'
          case neg => rw [if_neg hc23] at h; exact absurd h (by simp)
          rw [if_pos hc23] at h
          obtain ⟨hc2, hc3⟩ := hc23
          subst hc2; subst hc3
          by_cases hD : (rest4.takeWhile isWordChar).isEmpty
          case pos => rw [if_pos hD] at h; exact absurd h (by simp)
          rw [if_neg hD] at h
          cases hE : rest4.dropWhile isWordChar with
          | nil => rw [hE] at h; exact absurd h (by simp)
          | cons c4 rest6 =>
            rw [hE] at h
            simp only at h
            by_cases hc4 : c4 = '>'
            case neg => rw [if_neg hc4] at h; exact absurd h (by simp)
            rw [if_pos hc4] at h
            subst hc4
            simp only [Option.some.injEq, Prod.mk.injEq] at h
            obtain ⟨hm, hrem⟩ := h
            subst hrem
            subst hm
            conv_lhs =>
              rw [← List.takeWhile_append_dropWhile isWordChar rest, hB]
            conv_lhs =>
              rw [← List.takeWhile_append_dropWhile (fun c => decide (c ≠ '<')) rest2, hC]
            conv_lhs =>
              rw [← List.takeWhile_append_dropWhile isWordChar rest4, hE]

theorem matchTagAt_length {s : List Char} {m : TagMatch} {rem : List Char}
    (h : matchTagAt s = some (m, rem)) : rem.length < s.length := by
  have hs := matchTagAt_some h
  rw [hs]
  simp only [List.length_cons, List.length_append]
  omega

theorem scanTagsAux_congr :
    ∀ f1 : Nat, ∀ {f2 : Nat} {s : List Char},
      s.length ≤ f1 → s.length ≤ f2 → scanTagsAux f1 s = scanTagsAux f2 s := by
  intro f1
  induction f1 using Nat.strong_induction_on with
  | _ f1 ih =>
    intro f2 s h1 h2
    cases s with
    | nil => cases f1 <;> cases f2 <;> simp [scanTagsAux]
    | cons c rest =>
      simp only [List.length_cons] at h1 h2
      cases f1 with
      | zero => omega
      | succ g1 =>
        cases f2 with
        | zero => omega
        | succ g2 =>
          cases hm : matchTagAt (c :: rest) with
          | none =>
            simp only [scanTagsAux, hm]
            exact ih g1 (by omega) (by omega) (by omega)
          | some pr =>
            obtain ⟨m, rem⟩ := pr
            have hlen := matchTagAt_length hm
            simp only [List.length_cons] at hlen
            simp only [scanTagsAux, hm]
            rw [ih g1 (by omega) (show rem.length ≤ g1 by omega)
              (show rem.length ≤ g2 by omega)]

theorem scanTags_cons_none {c : Char} {rest : List Char}
    (h : matchTagAt (c :: rest) = none) :
    scanTags (c :: rest) = scanTags rest := by
  rw [scanTags, scanTags, List.length_cons]
  simp only [scanTagsAux, h]

theorem scanTags_cons_some {c : Char} {rest : List Char} {m : TagMatch}
    {rem : List Char} (h : matchTagAt (c :: rest) = some (m, rem)) :
    scanTags (c :: rest) = m :: scanTags rem := by
  rw [scanTags, scanTags, List.length_cons]
  simp only [scanTagsAux, h]
  have hlen := matchTagAt_length h
  simp only [List.length_cons] at hlen
  rw [scanTagsAux_congr rest.length (by omega) (le_refl _)]

theorem takeWhile_append_stop {p : Char → Bool} :
    ∀ {l : List Char}, (∀ a ∈ l, p a = true) → ∀ {c : Char}, p c = false →
      ∀ r : List Char,
        (l ++ c :: r).takeWhile p = l ∧ (l ++ c :: r).dropWhile p = c :: r := by
  intro l
  induction l with
  | nil =>
    intro _ c hc r
    constructor
    · rw [List.nil_append, List.takeWhile_cons, hc]
      simp
    · rw [List.nil_append, List.dropWhile_cons, hc]
      simp
  | cons a l' ih =>
    intro hl c hc r
    have ha : p a = true := hl a (by simp)
    have hrec := ih (fun b hb => hl b (by simp [hb])) hc r
    constructor
    · rw [List.cons_append, List.takeWhile_cons, ha]
      simp [hrec.1]
    · rw [List.cons_append, List.dropWhile_cons, ha]
      simp [hrec.2]

theorem matchTagAt_eq (c0 : Char) (rest : List Char) :
    matchTagAt (c0 :: rest) =
      if c0 = '<' then
        if (rest.takeWhile isWordChar).isEmpty then none
        else
          match rest.dropWhile isWordChar with
          | c1 :: rest2 =>
            if c1 = '>' then
              match rest2.dropWhile (fun c => c ≠ '<') with
              | c2 :: c3 :: rest4 =>
                if c2 = '<' ∧ c3 = '/' then
                  if (rest4.takeWhile isWordChar).isEmpty then none
                  else
                    match rest4.dropWhile isWordChar with
                    | c4 :: rest6 =>
                      if c4 = '>' then
                        some (⟨rest.takeWhile isWordChar,
                               rest2.takeWhile (fun c => c ≠ '<'),
                               rest4.takeWhile isWordChar⟩, rest6)
                      else none
                    | [] => none
                else none
              | _ => none
            else none
          | [] => none
      else none := by
  simp only [matchTagAt]

theorem matchTagAt_entry {o v c : List Char} (ho : o ≠ [])
    (how : ∀ a ∈ o, isWordChar a = true) (hv : '<' ∉ v)
    (hc : c ≠ []) (hcw : ∀ a ∈ c, isWordChar a = true) (y : List Char) :
    matchTagAt ('<' :: (o ++ '>' :: (v ++ '<' :: '/' :: (c ++ '>' :: '\n' :: y))))
      = some (⟨o, v, c⟩, '\n' :: y) := by
  have hgt : isWordChar '>' = false := by decide
  obtain ⟨ht1, hd1⟩ :=
    takeWhile_append_stop how hgt (v ++ '<' :: '/' :: (c ++ '>' :: '\n' :: y))
  have hv' : ∀ a ∈ v, (fun x => decide (x ≠ '<')) a = true := by
    intro a ha
    simp only [decide_eq_true_eq]
    intro he
    exact hv (he ▸ ha)
  obtain ⟨ht2, hd2⟩ :=
    takeWhile_append_stop hv'
      (show (fun x => decide (x ≠ '<')) '<' = false by decide)
      ('/' :: (c ++ '>' :: '\n' :: y))
  obtain ⟨ht3, hd3⟩ := takeWhile_append_stop hcw hgt ('\n' :: y)
  have hoE : ¬((o : List Char).isEmpty = true) := by
    simpa [List.isEmpty_iff] using ho
  have hcE : ¬((c : List Char).isEmpty = true) := by
    simpa [List.isEmpty_iff] using hc
  rw [matchTagAt_eq, if_pos rfl, ht1, if_neg hoE, hd1]
  simp only [if_pos rfl]
  rw [ht2, hd2]
  simp only [if_pos (by exact ⟨rfl, rfl⟩ : ('<' : Char) = '<' ∧ ('/' : Char) = '/')]
  rw [ht3, if_neg hcE, hd3]
  simp

theorem fcClose_shape : fcClose = '<' :: '/' :: ("func_call".data ++ ['>']) := rfl

theorem argClose_shape : argClose = '<' :: '/' :: ("arguments".data ++ ['>']) := rfl

theorem matchTagAt_newline (l : List Char) : matchTagAt ('\n' :: l) = none := rfl

theorem scanTags_renderEntries :
    ∀ {entries : List (String × String × String)},
      (∀ e ∈ entries, GoodEntry e) →
      scanTags ('\n' :: (renderEntries entries).data) = entries.map toTag := by
  intro entries
  induction entries with
  | nil =>
    intro _
    rfl
  | cons e rest ih =>
    intro h
    have hgood := h e (by simp)
    have hdata : (renderEntries (e :: rest)).data =
        (renderEntry e).data ++ (renderEntries rest).data := by
      rw [renderEntries, String.data_append]
    rw [hdata, renderEntry_data]
    rw [scanTags_cons_none (matchTagAt_newline _)]
    have hsh : ('<' :: (e.1.data ++ '>' :: (e.2.1.data ++ '<' :: '/' ::
          (e.2.2.data ++ '>' :: ['\n'])))) ++ (renderEntries rest).data
        = '<' :: (e.1.data ++ '>' :: (e.2.1.data ++ '<' :: '/' ::
          (e.2.2.data ++ '>' :: '\n' :: (renderEntries rest).data))) := by
      simp
    rw [hsh]
    rw [scanTags_cons_some (matchTagAt_entry hgood.1.1 hgood.1.2
      hgood.2.2.2.2 hgood.2.1.1 hgood.2.1.2 (renderEntries rest).data)]
    rw [ih (fun x hx => h x (by simp [hx]))]
    rfl

theorem skips_fcClose_body {name : String} (hn1 : '<' ∉ name.data)
    {entries : List (String × String × String)}
    (hent : ∀ e ∈ entries, GoodEntry e) :
    Skips fcClose
      ('\n' :: (tnOpen ++ (name.data ++ (tnClose ++ ('\n' :: (argOpen ++
        ('\n' :: ((renderEntries entries).data ++ (argClose ++ ['\n']))))))))) := by
  rw [fcClose_shape]
  have hpw : ∀ a ∈ "func_call".data, isWordChar a = true := by decide
  have s8 : Skips ('<' :: '/' :: ("func_call".data ++ ['>'])) ['\n'] :=
    skips_of_ne_head rfl (by decide)
  have s7 : Skips ('<' :: '/' :: ("func_call".data ++ ['>'])) (argClose ++ ['\n']) :=
    skips_append (skips_of_noCrossMatch (by decide)) s8
  have s6 : Skips ('<' :: '/' :: ("func_call".data ++ ['>']))
      ((renderEntries entries).data ++ (argClose ++ ['\n'])) :=
    skips_append
      (skips_renderEntries hpw (fun e he =>
        ⟨hent e he, (hent e he).2.2.2.1⟩)) s7
  have s5 : Skips ('<' :: '/' :: ("func_call".data ++ ['>']))
      ('\n' :: ((renderEntries entries).data ++ (argClose ++ ['\n']))) :=
    skips_cons (fun y => not_prefixOf_head (by decide)) s6
  have s4 : Skips ('<' :: '/' :: ("func_call".data ++ ['>']))
      (argOpen ++ ('\n' :: ((renderEntries entries).data ++ (argClose ++ ['\n'])))) :=
    skips_append (skips_of_noCrossMatch (by decide)) s5
  have s3 : Skips ('<' :: '/' :: ("func_call".data ++ ['>']))
      ('\n' :: (argOpen ++ ('\n' :: ((renderEntries entries).data ++
        (argClose ++ ['\n']))))) :=
    skips_cons (fun y => not_prefixOf_head (by decide)) s4
  have s2 : Skips ('<' :: '/' :: ("func_call".data ++ ['>']))
      (tnClose ++ ('\n' :: (argOpen ++ ('\n' :: ((renderEntries entries).data ++
        (argClose ++ ['\n'])))))) :=
    skips_append (skips_of_noCrossMatch (by decide)) s3
  have s1 : Skips ('<' :: '/' :: ("func_call".data ++ ['>']))
      (name.data ++ (tnClose ++ ('\n' :: (argOpen ++ ('\n' ::
        ((renderEntries entries).data ++ (argClose ++ ['\n']))))))) :=
    skips_append
      (skips_of_ne_head rfl (fun a ha he => hn1 (he ▸ ha))) s2
  have s0 : Skips ('<' :: '/' :: ("func_call".data ++ ['>']))
      (tnOpen ++ (name.data ++ (tnClose ++ ('\n' :: (argOpen ++ ('\n' ::
        ((renderEntries entries).data ++ (argClose ++ ['\n'])))))))) :=
    skips_append (skips_of_noCrossMatch (by decide)) s1
  exact skips_cons (fun y => not_prefixOf_head (by decide)) s0

theorem skips_argOpen_head {name : String} (hn1 : '<' ∉ name.data) :
    Skips argOpen ('\n' :: (tnOpen ++ (name.data ++ (tnClose ++ ['\n'])))) := by
  have hsh : argOpen = '<' :: "arguments>".data := rfl
  rw [hsh]
  have s3 : Skips ('<' :: "arguments>".data) ['\n'] :=
    skips_of_ne_head rfl (by decide)
  have s2 : Skips ('<' :: "arguments>".data) (tnClose ++ ['\n']) :=
    skips_append (skips_of_noCrossMatch (by decide)) s3
  have s1 : Skips ('<' :: "arguments>".data) (name.data ++ (tnClose ++ ['\n'])) :=
    skips_append (skips_of_ne_head rfl (fun a ha he => hn1 (he ▸ ha))) s2
  have s0 : Skips ('<' :: "arguments>".data)
      (tnOpen ++ (name.data ++ (tnClose ++ ['\n']))) :=
    skips_append (skips_of_noCrossMatch (by decide)) s1
  exact skips_cons (fun y => not_prefixOf_head (by decide)) s0

theorem skips_argClose_entries {entries : List (String × String × String)}
    (hent : ∀ e ∈ entries, GoodEntry e) :
    Skips argClose ('\n' :: (renderEntries entries).data) := by
  rw [argClose_shape]
  have hpw : ∀ a ∈ "arguments".data, isWordChar a = true := by decide
  exact skips_cons (fun y => not_prefixOf_head (by decide))
    (skips_renderEntries hpw (fun e he => ⟨hent e he, (hent e he).2.2.1⟩))

theorem parseArgsMapCore_render (pre name post : String)
    (entries : List (String × String × String))
    (hpre : ∀ a ∈ pre.data, a ≠ '<')
    (hn1 : '<' ∉ name.data) (hn2 : '\n' ∉ name.data)
    (hent : ∀ e ∈ entries, GoodEntry e) :
    parseArgsMapCore (pre ++ renderDirective name entries ++ post).data
      = some ⟨goTrimSpace name, processTags (entries.map toTag)⟩ := by
  have hnl : "\n".data = ['\n'] := rfl
  have hR : (pre ++ renderDirective name entries ++ post).data =
      pre.data ++ (fcOpen ++ (('\n' :: (tnOpen ++ (name.data ++ (tnClose ++
        ('\n' :: (argOpen ++ ('\n' :: ((renderEntries entries).data ++
          (argClose ++ ['\n']))))))))) ++ (fcClose ++ post.data))) := by
    simp [renderDirective, String.data_append, fcOpen, fcClose, tnOpen, tnClose,
      argOpen, argClose, hnl]
  have hskipPre : Skips fcOpen pre.data := skips_of_ne_head rfl hpre
  have hf1 := skips_findSub hskipPre
    (('\n' :: (tnOpen ++ (name.data ++ (tnClose ++ ('\n' :: (argOpen ++
      ('\n' :: ((renderEntries entries).data ++ (argClose ++ ['\n']))))))))) ++
      (fcClose ++ post.data))
  rw [List.append_assoc] at hf1
  have hf2 := skips_findSub (skips_fcClose_body hn1 hent) post.data
  rw [List.append_assoc] at hf2
  have hEB1 : extractBetween fcOpen fcClose
      (pre.data ++ (fcOpen ++ (('\n' :: (tnOpen ++ (name.data ++ (tnClose ++
        ('\n' :: (argOpen ++ ('\n' :: ((renderEntries entries).data ++
          (argClose ++ ['\n']))))))))) ++ (fcClose ++ post.data))))
      = some ('\n' :: (tnOpen ++ (name.data ++ (tnClose ++
        ('\n' :: (argOpen ++ ('\n' :: ((renderEntries entries).data ++
          (argClose ++ ['\n']))))))))) := by
    simp only [extractBetween, hf1, hf2]
  have hFTN : findToolName
      ('\n' :: (tnOpen ++ (name.data ++ (tnClose ++
        ('\n' :: (argOpen ++ ('\n' :: ((renderEntries entries).data ++
          (argClose ++ ['\n'])))))))))
      = some name.data := findToolName_at hn1 hn2
  have hg1 := skips_findSub (skips_argOpen_head hn1)
    ('\n' :: ((renderEntries entries).data ++ (argClose ++ ['\n'])))
  rw [List.append_assoc] at hg1
  have hsplit1 : ('\n' :: (tnOpen ++ (name.data ++ (tnClose ++ ['\n'])))) ++
      (argOpen ++ ('\n' :: ((renderEntries entries).data ++ (argClose ++ ['\n']))))
      = '\n' :: (tnOpen ++ (name.data ++ (tnClose ++
        ('\n' :: (argOpen ++ ('\n' :: ((renderEntries entries).data ++
          (argClose ++ ['\n'])))))))) := by
    simp
  rw [hsplit1] at hg1
  have hg2 := skips_findSub (skips_argClose_entries hent) ['\n']
  rw [List.append_assoc] at hg2
  have hsplit2 : ('\n' :: (renderEntries entries).data) ++ (argClose ++ ['\n'])
      = '\n' :: ((renderEntries entries).data ++ (argClose ++ ['\n'])) := by
    simp
  rw [hsplit2] at hg2
  have hEB2 : extractBetween argOpen argClose
      ('\n' :: (tnOpen ++ (name.data ++ (tnClose ++
        ('\n' :: (argOpen ++ ('\n' :: ((renderEntries entries).data ++
          (argClose ++ ['\n'])))))))))
      = some ('\n' :: (renderEntries entries).data) := by
    simp only [extractBetween, hg1, hg2]
  have hcont : containsSub fcOpen
      (pre.data ++ (fcOpen ++ (('\n' :: (tnOpen ++ (name.data ++ (tnClose ++
        ('\n' :: (argOpen ++ ('\n' :: ((renderEntries entries).data ++
          (argClose ++ ['\n']))))))))) ++ (fcClose ++ post.data)))) = true := by
    rw [containsSub_iff]
    exact ⟨pre.data, ('\n' :: (tnOpen ++ (name.data ++ (tnClose ++
      ('\n' :: (argOpen ++ ('\n' :: ((renderEntries entries).data ++
        (argClose ++ ['\n']))))))))) ++ (fcClose ++ post.data), by simp⟩
  rw [hR]
  simp only [parseArgsMapCore]
  rw [if_pos hcont]
  simp only [hEB1, hFTN, hEB2]
  rw [scanTags_renderEntries hent]

theorem foldl_processTag_matched :
    ∀ (pairs : List (String × String)) (m : List (String × JVal)),
      ((pairs.map (fun kv => (kv.1, kv.2, kv.1))).map toTag).foldl processTag m
        = pairs.foldl insertPair m := by
  intro pairs
  induction pairs with
  | nil => intro m; rfl
  | cons kv rest ih =>
    intro m
    simp only [List.map_cons, List.foldl_cons]
    rw [ih]
    congr 1
    rw [processTag, if_neg (by simp [toTag])]
    rfl

theorem processTags_matched (pairs : List (String × String)) :
    processTags ((pairs.map (fun kv => (kv.1, kv.2, kv.1))).map toTag)
      = expectedArgs pairs :=
  foldl_processTag_matched pairs []

theorem foldl_processTag_filter :
    ∀ (tags : List TagMatch) (m : List (String × JVal)),
      tags.foldl processTag m =
        (tags.filter (fun t => t.openName == t.closeName)).foldl processTag m := by
  intro tags
  induction tags with
  | nil => intro m; rfl
  | cons t rest ih =>
    intro m
    by_cases he : t.openName = t.closeName
    · rw [List.foldl_cons, List.filter_cons, if_pos (by simp [he]),
        List.foldl_cons, ih]
    · rw [List.foldl_cons, List.filter_cons, if_neg (by simp [he]),
        processTag, if_pos he, ih]

theorem processTags_skips_mismatched (tags : List TagMatch) :
    processTags tags =
      processTags (tags.filter (fun t => t.openName == t.closeName)) :=
  foldl_processTag_filter tags []

theorem processTags_all_mismatched {tags : List TagMatch}
    (h : ∀ t ∈ tags, t.openName ≠ t.closeName) : processTags tags = [] := by
  rw [processTags_skips_mismatched]
  have : tags.filter (fun t => t.openName == t.closeName) = [] := by
    rw [List.filter_eq_nil]
    intro t ht
    simp [h t ht]
  rw [this]
  rfl

theorem lookup_replace (k : String) (v : JVal) :
    ∀ m : List (String × JVal), m.any (fun p => decide (p.1 = k)) = true →
      (m.map (fun p => if p.1 = k then (k, v) else p)).lookup k = some v := by
  intro m
  induction m with
  | nil => intro h; simp at h
  | cons p rest ih =>
    intro h
    rw [List.map_cons]
    by_cases hp : p.1 = k
    · rw [if_pos hp]
      simp [List.lookup]
    · rw [if_neg hp]
      have hany : rest.any (fun p => decide (p.1 = k)) = true := by
        rw [List.any_cons, Bool.or_eq_true] at h
        rcases h with h1 | h2
        · exact absurd (of_decide_eq_true h1) hp
        · exact h2
      rw [List.lookup]
      have hbeq : (k == p.1) = false := by
        simp [BEq.beq]
        exact fun he => hp he.symm
      rw [hbeq]
      exact ih hany

theorem lookup_append_last (k : String) (v : JVal) :
    ∀ m : List (String × JVal), m.any (fun p => decide (p.1 = k)) = false →
      (m ++ [(k, v)]).lookup k = some v := by
  intro m
  induction m with
  | nil => simp [List.lookup]
  | cons p rest ih =>
    intro h
    rw [List.any_cons, Bool.or_eq_false_iff] at h
    have hp : p.1 ≠ k := by simpa using h.1
    rw [List.cons_append, List.lookup]
    have hbeq : (k == p.1) = false := by
      simp [BEq.beq]
      exact fun he => hp he.symm
    rw [hbeq]
    exact ih h.2

theorem lookup_mapSet (m : List (String × JVal)) (k : String) (v : JVal) :
    (mapSet m k v).lookup k = some v := by
  rw [mapSet]
  split
  · rename_i hany
    exact lookup_replace k v m hany
  · rename_i hany
    exact lookup_append_last k v m (Bool.eq_false_iff.mpr hany)

theorem lookup_expectedArgs_last (pairs : List (String × String)) (k v : String) :
    (expectedArgs (pairs ++ [(k, v)])).lookup k
      = some (coerceValue k (goTrimSpace v)) := by
  rw [expectedArgs, List.foldl_append]
  exact lookup_mapSet _ k _

/-- C1: for every well-formed directive block (arbitrary narrative before and
after it), extraction recovers the exact tool name, and records every
`<key>value</key>` pair with its whitespace-trimmed value, keeping
`customerPhone` and `orderId` as strings, converting every other field to an
integer exactly when its trimmed value parses fully as one (`coerceValue` /
`insertPair`), and for duplicate keys the last occurrence wins (sequential
`mapSet` insertion; the final binding of a duplicated key is the last one). -/
theorem extraction_recovers_wellformed_directive
    (pre name post : String) (pairs : List (String × String))
    (hpre : ∀ a ∈ pre.data, a ≠ '<')
    (hn1 : '<' ∉ name.data) (hn2 : '\n' ∉ name.data)
    (hnt : goTrimSpace name = name)
    (hpairs : ∀ kv ∈ pairs, GoodPair kv) :
    parseArgsMap (pre ++ renderDirective name
        (pairs.map (fun kv => (kv.1, kv.2, kv.1))) ++ post)
      = some ⟨name, expectedArgs pairs⟩ ∧
    parseToolCallFromXML (pre ++ renderDirective name
        (pairs.map (fun kv => (kv.1, kv.2, kv.1))) ++ post)
      = some ⟨name, marshalArgs (expectedArgs pairs)⟩ ∧
    ∀ (firsts : List (String × String)) (k v : String),
      (expectedArgs (firsts ++ [(k, v)])).lookup k
        = some (coerceValue k (goTrimSpace v)) := by
  have hent : ∀ e ∈ pairs.map (fun kv => (kv.1, kv.2, kv.1)), GoodEntry e := by
    intro e he
    rw [List.mem_map] at he
    obtain ⟨kv, hkv, rfl⟩ := he
    obtain ⟨hw, ha, hf, hv⟩ := hpairs kv hkv
    exact ⟨hw, hw, ha, hf, hv⟩
  have hmain : parseArgsMap (pre ++ renderDirective name
      (pairs.map (fun kv => (kv.1, kv.2, kv.1))) ++ post)
      = some ⟨name, expectedArgs pairs⟩ := by
    rw [parseArgsMap, parseArgsMapCore_render pre name post _ hpre hn1 hn2 hent,
      processTags_matched, hnt]
  refine ⟨hmain, ?_, fun firsts k v => lookup_expectedArgs_last firsts k v⟩
  simp only [parseToolCallFromXML, hmain, Option.map_some']

theorem extraction_recovers_wellformed_directive_witness :
    parseArgsMap ("好的" ++ renderDirective "create_order"
        ([("productName", "山地自行车"), ("quantity", " 2 "),
          ("customerPhone", "13800138000"), ("quantity", "3")].map
            (fun kv => (kv.1, kv.2, kv.1))) ++ "收到")
      = some ⟨"create_order",
          expectedArgs [("productName", "山地自行车"), ("quantity", " 2 "),
            ("customerPhone", "13800138000"), ("quantity", "3")]⟩ ∧
    (expectedArgs [("productName", "山地自行车"), ("quantity", " 2 "),
        ("customerPhone", "13800138000"), ("quantity", "3")]).lookup "quantity"
      = some (JVal.int 3) := by
  have hthm := extraction_recovers_wellformed_directive "好的" "create_order" "收到"
    [("productName", "山地自行车"), ("quantity", " 2 "),
     ("customerPhone", "13800138000"), ("quantity", "3")]
    (by decide) (by decide) (by decide) (by decide) (by decide)
  refine ⟨hthm.1, ?_⟩
  have h2 := hthm.2.2 [("productName", "山地自行车"), ("quantity", " 2 "),
     ("customerPhone", "13800138000")] "quantity" "3"
  have h3 : ([("productName", "山地自行车"), ("quantity", " 2 "),
      ("customerPhone", "13800138000")] ++ [("quantity", "3")]) =
      [("productName", "山地自行车"), ("quantity", " 2 "),
       ("customerPhone", "13800138000"), ("quantity", "3")] := rfl
  rw [h3] at h2
  rw [h2]
  decide

theorem containsSub_take {pat l : List Char} {n : Nat}
    (h : containsSub pat (l.take n) = true) : containsSub pat l = true := by
  rw [containsSub_iff] at h ⊢
  obtain ⟨a, b, hab⟩ := h
  refine ⟨a, b ++ l.drop n, ?_⟩
  conv_lhs => rw [← List.take_append_drop n l]
  rw [hab]
  simp

theorem content_keeps_not_contains {inner content tail pat : List Char}
    (hf2 : findSub fcClose (inner ++ fcClose) = some (content, tail))
    (h : containsSub pat inner = false) :
    containsSub pat content = false := by
  have hsplit := findSub_eq_some hf2
  have hcl : content.length ≤ inner.length := by
    have := congrArg List.length hsplit
    simp [List.length_append] at this
    omega
  have htake : content = inner.take content.length := by
    have h1 : (inner ++ fcClose).take content.length
        = ((content ++ fcClose) ++ tail).take content.length := by rw [← hsplit]
    rw [List.take_append_of_le_length hcl,
      List.take_append_of_le_length (by simp),
      List.take_append_of_le_length (le_refl _), List.take_length] at h1
    exact h1.symm
  by_contra hcon
  rw [Bool.not_eq_false] at hcon
  rw [htake] at hcon
  rw [containsSub_take hcon] at h
  exact absurd h (by simp)

theorem inner_wrap_data (inner : String) :
    ("<func_call>" ++ inner ++ "</func_call>").data
      = fcOpen ++ (inner.data ++ fcClose) := by
  simp [String.data_append, fcOpen, fcClose]

theorem inner_wrap_contains (inner : String) :
    containsSub fcOpen (fcOpen ++ (inner.data ++ fcClose)) = true := by
  rw [containsSub_iff]
  exact ⟨[], inner.data ++ fcClose, by simp⟩

theorem parse_missing_tool_name {inner : String}
    (h : containsSub tnOpen inner.data = false) :
    parseArgsMapCore ("<func_call>" ++ inner ++ "</func_call>").data = none := by
  rw [inner_wrap_data]
  simp only [parseArgsMapCore]
  rw [if_pos (inner_wrap_contains inner)]
  have hf1 : findSub fcOpen (fcOpen ++ (inner.data ++ fcClose))
      = some ([], inner.data ++ fcClose) := findSub_self_append _ _
  cases hf2 : findSub fcClose (inner.data ++ fcClose) with
  | none => simp only [extractBetween, hf1, hf2]
  | some pq =>
    obtain ⟨content, tail⟩ := pq
    simp only [extractBetween, hf1, hf2]
    cases hftn : findToolName content with
    | some nm =>
      exfalso
      have hcont := findToolName_some_contains hftn
      rw [content_keeps_not_contains hf2 h] at hcont
      exact absurd hcont (by simp)
    | none => simp only [hftn]

theorem parse_missing_arguments {inner : String}
    (h : containsSub argOpen inner.data = false) :
    parseArgsMapCore ("<func_call>" ++ inner ++ "</func_call>").data = none := by
  rw [inner_wrap_data]
  simp only [parseArgsMapCore]
  rw [if_pos (inner_wrap_contains inner)]
  have hf1 : findSub fcOpen (fcOpen ++ (inner.data ++ fcClose))
      = some ([], inner.data ++ fcClose) := findSub_self_append _ _
  cases hf2 : findSub fcClose (inner.data ++ fcClose) with
  | none => simp only [extractBetween, hf1, hf2]
  | some pq =>
    obtain ⟨content, tail⟩ := pq
    simp only [extractBetween, hf1, hf2]
    cases hftn : findToolName content with
    | none => simp only [hftn]
    | some nm =>
      simp only [hftn]
      have hnc : containsSub argOpen content = false :=
        content_keeps_not_contains hf2 h
      have hfa : findSub argOpen content = none :=
        findSub_eq_none_of_not_contains hnc
      simp only [extractBetween, hfa]

theorem filter_map_toTag (entries : List (String × String × String)) :
    ((entries.map toTag).filter (fun t => t.openName == t.closeName))
      = (entries.filter (fun e => e.1 == e.2.2)).map toTag := by
  induction entries with
  | nil => rfl
  | cons e rest ih =>
    rw [List.map_cons, List.filter_cons, List.filter_cons]
    by_cases he : e.1 = e.2.2
    · rw [if_pos (by simp [toTag, he]), if_pos (by simp [he]), List.map_cons, ih]
    · have hd : e.1.data ≠ e.2.2.data := ne_of_string_ne he
      rw [if_neg (by simp [toTag, hd]), if_neg (by simp [he]), ih]

/-- C2: extraction never errors (it is a total function into an option); a
block without a tool_name field or without an arguments block parses to "no
directive found", and a tag pair whose open name differs from its close name
contributes nothing to the argument mapping (parsing a directive equals
parsing the directive with the mismatched pairs deleted). -/
theorem extraction_degrades_on_malformed :
    (∀ inner : String, containsSub tnOpen inner.data = false →
      parseToolCallFromXML ("<func_call>" ++ inner ++ "</func_call>") = none) ∧
    (∀ inner : String, containsSub argOpen inner.data = false →
      parseToolCallFromXML ("<func_call>" ++ inner ++ "</func_call>") = none) ∧
    (∀ (pre name post : String) (entries : List (String × String × String)),
      (∀ a ∈ pre.data, a ≠ '<') → '<' ∉ name.data → '\n' ∉ name.data →
      (∀ e ∈ entries, GoodEntry e) →
      parseToolCallFromXML (pre ++ renderDirective name entries ++ post)
        = parseToolCallFromXML (pre ++ renderDirective name
            (entries.filter (fun e => e.1 == e.2.2)) ++ post)) := by
  refine ⟨?_, ?_, ?_⟩
  · intro inner h
    simp only [parseToolCallFromXML, parseArgsMap, parse_missing_tool_name h,
      Option.map_none']
  · intro inner h
    simp only [parseToolCallFromXML, parseArgsMap, parse_missing_arguments h,
      Option.map_none']
  · intro pre name post entries hpre hn1 hn2 hent
    have hfent : ∀ e ∈ entries.filter (fun e => e.1 == e.2.2), GoodEntry e :=
      fun e he => hent e (List.mem_of_mem_filter he)
    simp only [parseToolCallFromXML, parseArgsMap,
      parseArgsMapCore_render pre name post entries hpre hn1 hn2 hent,
      parseArgsMapCore_render pre name post _ hpre hn1 hn2 hfent]
    rw [processTags_skips_mismatched (entries.map toTag), filter_map_toTag]

theorem extraction_degrades_on_malformed_witness :
    parseToolCallFromXML ("<func_call>" ++ "缺少名字" ++ "</func_call>") = none ∧
    parseToolCallFromXML ("<func_call>" ++ "<tool_name>query_order</tool_name>"
      ++ "</func_call>") = none ∧
    parseToolCallFromXML ("" ++ renderDirective "query_order"
        [("orderNumber", "ORD-9", "badId")] ++ "")
      = parseToolCallFromXML ("" ++ renderDirective "query_order"
          ([("orderNumber", "ORD-9", "badId")].filter
            (fun e => e.1 == e.2.2)) ++ "") :=
  ⟨extraction_degrades_on_malformed.1 "缺少名字" (by decide),
   extraction_degrades_on_malformed.2.1 "<tool_name>query_order</tool_name>"
     (by decide),
   extraction_degrades_on_malformed.2.2 "" "query_order" ""
     [("orderNumber", "ORD-9", "badId")] (by decide) (by decide) (by decide)
     (by decide)⟩

/-- C10: a directive containing a tool_name field and an arguments block whose
content yields no matching key/value pair still reports a directive found,
with the extracted tool name and the empty argument mapping serialized as
"{}", and the tool is dispatched with that empty-argument JSON. -/
theorem empty_arguments_dispatch
    (pre name post : String) (entries : List (String × String × String))
    (hpre : ∀ a ∈ pre.data, a ≠ '<')
    (hn1 : '<' ∉ name.data) (hn2 : '\n' ∉ name.data)
    (hnt : goTrimSpace name = name)
    (hent : ∀ e ∈ entries, GoodEntry e)
    (hmm : ∀ e ∈ entries, e.1 ≠ e.2.2) :
    parseToolCallFromXML (pre ++ renderDirective name entries ++ post)
      = some ⟨name, "\x7b\x7d"⟩ ∧
    ∀ (execute : String → String → Except String String) (sid r : String),
      execute name "\x7b\x7d" = .ok r →
      handleChatReply execute (pre ++ renderDirective name entries ++ post) sid
        = (200, ⟨buildFinalReply (pre ++ renderDirective name entries ++ post) r,
            sid⟩) := by
  have hempty : processTags (entries.map toTag) = [] := by
    apply processTags_all_mismatched
    intro t ht
    rw [List.mem_map] at ht
    obtain ⟨e, he, rfl⟩ := ht
    exact ne_of_string_ne (hmm e he)
  have hparse : parseToolCallFromXML (pre ++ renderDirective name entries ++ post)
      = some ⟨name, "\x7b\x7d"⟩ := by
    simp only [parseToolCallFromXML, parseArgsMap,
      parseArgsMapCore_render pre name post entries hpre hn1 hn2 hent,
      hempty, Option.map_some', hnt]
    rfl
  refine ⟨hparse, ?_⟩
  intro execute sid r hexec
  simp only [handleChatReply, hparse, hexec]

theorem empty_arguments_dispatch_witness :
    parseToolCallFromXML ("" ++ renderDirective "search_product"
        [("keyword", "bike", "kw")] ++ "")
      = some ⟨"search_product", "\x7b\x7d"⟩ ∧
    handleChatReply (fun _ _ => .ok "找到 3 件商品")
        ("" ++ renderDirective "search_product" [("keyword", "bike", "kw")] ++ "")
        "s1"
      = (200, ⟨buildFinalReply ("" ++ renderDirective "search_product"
          [("keyword", "bike", "kw")] ++ "") "找到 3 件商品", "s1"⟩) := by
  have h := empty_arguments_dispatch "" "search_product" ""
    [("keyword", "bike", "kw")] (by decide) (by decide) (by decide) (by decide)
    (by decide) (by decide)
  exact ⟨h.1, h.2 _ "s1" "找到 3 件商品" rfl⟩

/-- C4 as stated is false: for a response without the directive marker the
handler returns the response text unchanged, not trimmed.  At the concrete
response " 你好 " (no marker) the reply is " 你好 " while the trimmed original
is "你好". -/
theorem reply_not_trimmed_counterexample :
    parseToolCallFromXML " 你好 " = none ∧
    ¬((handleChatReply (fun _ _ => Except.error "e") " 你好 " "s").2.reply
        = goTrimSpace " 你好 ") := by
  decide

/-- C4 (amended): for any model response that does not contain the opening
directive marker, extraction reports "not found" and the user-visible reply
equals the original response text unchanged. -/
theorem no_directive_reply_unchanged
    (execute : String → String → Except String String) (resp sid : String)
    (h : containsSub fcOpen resp.data = false) :
    parseToolCallFromXML resp = none ∧
    (handleChatReply execute resp sid).2.reply = resp := by
  have hp : parseArgsMapCore resp.data = none := by
    simp only [parseArgsMapCore]
    rw [if_neg (by simp [h])]
  have hparse : parseToolCallFromXML resp = none := by
    simp only [parseToolCallFromXML, parseArgsMap, hp, Option.map_none']
  exact ⟨hparse, by simp only [handleChatReply, hparse]⟩

theorem no_directive_reply_unchanged_witness :
    parseToolCallFromXML "有什么可以帮您？" = none ∧
    (handleChatReply (fun _ _ => Except.error "e") "有什么可以帮您？" "s7").2.reply
      = "有什么可以帮您？" :=
  no_directive_reply_unchanged (fun _ _ => Except.error "e") "有什么可以帮您？" "s7"
    (by decide)

/-- C5: the assembled message list is exactly the fixed system preamble, then
the retrieved-context system message if and only if the snippet list is
non-empty (formatted by `FormatContext`), then the client history in order
with the current user turn skipped, then the current user message last. -/
theorem message_assembly_order (docs : List Document)
    (history : List HistoryMessage) (message : String) :
    handleChatMessages docs history message =
      [Message.mk "system" systemPrompt] ++
      (if docs.isEmpty then [] else [Message.mk "system" (FormatContext docs)]) ++
      (history.filter (fun h => !(h.content == message && h.role == "user"))).map
        (fun h => Message.mk h.role h.content) ++
      [Message.mk "user" message] ∧
    (handleChatMessages docs history message).head? =
      some (Message.mk "system" systemPrompt) ∧
    (handleChatMessages docs history message).getLast? =
      some (Message.mk "user" message) ∧
    (docs ≠ [] → (handleChatMessages docs history message).get? 1 =
      some (Message.mk "system" (FormatContext docs))) := by
  have heq : handleChatMessages docs history message =
      [Message.mk "system" systemPrompt] ++
      (if docs.isEmpty then [] else [Message.mk "system" (FormatContext docs)]) ++
      (history.filter (fun h => !(h.content == message && h.role == "user"))).map
        (fun h => Message.mk h.role h.content) ++
      [Message.mk "user" message] := by
    rw [handleChatMessages]
    by_cases hd : docs.isEmpty
    · rw [if_pos hd, if_pos hd]
      simp
    · rw [if_neg hd, if_neg hd]
  refine ⟨heq, ?_, ?_, ?_⟩
  · rw [heq]; rfl
  · rw [heq]
    rw [List.getLast?_append]
    rfl
  · intro hd
    rw [heq, if_neg (by simpa [List.isEmpty_iff] using hd)]
    rfl

theorem message_assembly_order_witness :
    (handleChatMessages [⟨"自行车知识", some "产品"⟩] [] "你们有山地自行车吗").get? 1
      = some (Message.mk "system" (FormatContext [⟨"自行车知识", some "产品"⟩])) :=
  (message_assembly_order [⟨"自行车知识", some "产品"⟩] [] "你们有山地自行车吗").2.2.2
    (by decide)

/-- C6: when the history echoes the current message as a user entry, the
assembled list contains exactly one user-role message with that content and it
is the final element; history entries with the same content but a different
role are kept. -/
theorem history_dedup_single_user_message (docs : List Document)
    (history : List HistoryMessage) (message : String)
    (_hmem : ∃ h ∈ history, h.role = "user" ∧ h.content = message) :
    (handleChatMessages docs history message).countP
        (fun m => m.role == "user" && m.content == message) = 1 ∧
    (handleChatMessages docs history message).getLast? =
      some (Message.mk "user" message) ∧
    (∀ h ∈ history, h.content = message → h.role ≠ "user" →
      Message.mk h.role h.content ∈ handleChatMessages docs history message) := by
  have heq : handleChatMessages docs history message =
      [Message.mk "system" systemPrompt] ++
      (if docs.isEmpty then [] else [Message.mk "system" (FormatContext docs)]) ++
      (history.filter (fun h => !(h.content == message && h.role == "user"))).map
        (fun h => Message.mk h.role h.content) ++
      [Message.mk "user" message] := by
    rw [handleChatMessages]
    by_cases hd : docs.isEmpty
    · rw [if_pos hd, if_pos hd]
      simp
    · rw [if_neg hd, if_neg hd]
  have hsys : ∀ s : String,
      ((Message.mk "system" s).role == "user" &&
        (Message.mk "system" s).content == message) = false := by
    intro s
    have h1 : (("system" : String) == "user") = false := by decide
    simp [h1]
  refine ⟨?_, ?_, ?_⟩
  · rw [heq]
    simp only [List.countP_append]
    have c1 : List.countP (fun m => m.role == "user" && m.content == message)
        [Message.mk "system" systemPrompt] = 0 := by
      simp [List.countP_cons, hsys systemPrompt]
    have c2 : List.countP (fun m => m.role == "user" && m.content == message)
        (if docs.isEmpty then ([] : List Message)
         else [Message.mk "system" (FormatContext docs)]) = 0 := by
      by_cases hd : docs.isEmpty
      · rw [if_pos hd]; rfl
      · rw [if_neg hd]
        simp [List.countP_cons, hsys (FormatContext docs)]
    have c3 : List.countP (fun m => m.role == "user" && m.content == message)
        ((history.filter
            (fun h => !(h.content == message && h.role == "user"))).map
          (fun h => Message.mk h.role h.content)) = 0 := by
      rw [List.countP_eq_zero]
      intro m hm
      rw [List.mem_map] at hm
      obtain ⟨h, hh, rfl⟩ := hm
      rw [List.mem_filter] at hh
      have hh2 := hh.2
      have hcond : (h.content == message && h.role == "user") = false := by
        by_contra hx
        rw [Bool.not_eq_false] at hx
        rw [hx] at hh2
        simp at hh2
      rw [Bool.and_eq_false_iff] at hcond
      rcases hcond with hc | hr
      · simp [hc]
      · simp [hr]
    have c4 : List.countP (fun m => m.role == "user" && m.content == message)
        [Message.mk "user" message] = 1 := by
      simp [List.countP_cons]
    rw [c1, c2, c3, c4]
  · rw [heq]
    rw [List.getLast?_append]
    rfl
  · intro h hh hc hr
    rw [heq]
    have hfil : h ∈ history.filter
        (fun h => !(h.content == message && h.role == "user")) := by
      rw [List.mem_filter]
      refine ⟨hh, ?_⟩
      have hrb : (h.role == "user") = false := by simpa using hr
      simp [hrb]
    simp only [List.mem_append]
    left; right
    exact List.mem_map.mpr ⟨h, hfil, rfl⟩

theorem history_dedup_single_user_message_witness :
    (handleChatMessages [] [⟨"user", "查订单"⟩, ⟨"assistant", "好的"⟩]
        "查订单").countP
        (fun m => m.role == "user" && m.content == "查订单") = 1 ∧
    (handleChatMessages [] [⟨"user", "查订单"⟩, ⟨"assistant", "好的"⟩]
        "查订单").getLast? = some (Message.mk "user" "查订单") :=
  ⟨(history_dedup_single_user_message [] _ "查订单"
      ⟨⟨"user", "查订单"⟩, by simp, rfl, rfl⟩).1,
   (history_dedup_single_user_message [] _ "查订单"
      ⟨⟨"user", "查订单"⟩, by simp, rfl, rfl⟩).2.1⟩

/-- C7: when a directive is found and the tool call succeeds, the reply is the
model response with every func_call block removed and surrounding whitespace
trimmed, followed by a blank line and the tool result; if the cleaned response
is empty, the reply is the tool result alone. -/
theorem reply_splices_tool_result
    (execute : String → String → Except String String)
    (resp sid : String) (tc : ToolCallInfo) (r : String)
    (hp : parseToolCallFromXML resp = some tc)
    (he : execute tc.toolName tc.arguments = .ok r) :
    (handleChatReply execute resp sid).2.reply =
      (if goTrimSpace (removeFuncCallBlocks resp) = "" then r
       else goTrimSpace (removeFuncCallBlocks resp) ++ "\n\n" ++ r) := by
  simp only [handleChatReply, hp, he]
  rfl

theorem reply_splices_tool_result_witness :
    (handleChatReply (fun _ _ => Except.ok "已发货")
        ("好的<func_call><tool_name>query_order</tool_name><arguments><orderNumber>ORD-1</orderNumber></arguments></func_call>")
        "s2").2.reply = "好的" ++ "\n\n" ++ "已发货" := by
  have h := reply_splices_tool_result (fun _ _ => Except.ok "已发货")
    ("好的<func_call><tool_name>query_order</tool_name><arguments><orderNumber>ORD-1</orderNumber></arguments></func_call>")
    "s2" ⟨"query_order", "\x7b\"orderNumber\":\"ORD-1\"\x7d"⟩ "已发货"
    (by decide) rfl
  rw [h]
  decide

/-- C8: a gateway response carrying an error object surfaces as an error with
the peer message; a successful response with an empty content-block list
surfaces as the empty-result error; otherwise the text of the first block is
returned; and a failed dispatched tool call still yields HTTP 200 with a
formatted failure reply embedding the error detail. -/
theorem gateway_errors_surface_in_reply :
    (∀ (resp : MCPResponseData) (e : MCPError), resp.error = some e →
      callToolProcess resp = .error ("工具调用失败: " ++ e.message)) ∧
    (∀ (resp : MCPResponseData) (tr : MCPToolResult), resp.error = none →
      resp.result = some tr → tr.content = [] →
      callToolProcess resp = .error "工具返回空结果") ∧
    (∀ (resp : MCPResponseData) (tr : MCPToolResult) (c : MCPContent)
        (rest : List MCPContent), resp.error = none → resp.result = some tr →
      tr.content = c :: rest → callToolProcess resp = .ok c.text) ∧
    (∀ (execute : String → String → Except String String)
        (resp sid : String) (tc : ToolCallInfo) (e : String),
      parseToolCallFromXML resp = some tc →
      execute tc.toolName tc.arguments = .error e →
      handleChatReply execute resp sid =
        (200, ⟨"抱歉，订单处理失败: " ++ e, sid⟩)) := by
  refine ⟨?_, ?_, ?_, ?_⟩
  · intro resp e he
    simp only [callToolProcess, he]
  · intro resp tr he hr hc
    simp only [callToolProcess, he, hr, hc]
  · intro resp tr c rest he hr hc
    simp only [callToolProcess, he, hr, hc]
  · intro execute resp sid tc e hp hexec
    simp only [handleChatReply, hp, hexec]

theorem gateway_errors_surface_in_reply_witness :
    callToolProcess ⟨7, none, some ⟨-32000, "库存不足"⟩⟩
      = .error ("工具调用失败: " ++ "库存不足") ∧
    callToolProcess ⟨8, some ⟨[]⟩, none⟩ = .error "工具返回空结果" ∧
    callToolProcess ⟨9, some ⟨[⟨"text", "订单已创建"⟩]⟩, none⟩ = .ok "订单已创建" ∧
    handleChatReply (fun _ _ => Except.error "下游超时")
        ("<func_call><tool_name>cancel_order</tool_name><arguments><orderNumber>ORD-2</orderNumber></arguments></func_call>")
        "s3"
      = (200, ⟨"抱歉，订单处理失败: " ++ "下游超时", "s3"⟩) :=
  ⟨gateway_errors_surface_in_reply.1 _ ⟨-32000, "库存不足"⟩ rfl,
   gateway_errors_surface_in_reply.2.1 _ ⟨[]⟩ rfl rfl rfl,
   gateway_errors_surface_in_reply.2.2.1 _ ⟨[⟨"text", "订单已创建"⟩]⟩
     ⟨"text", "订单已创建"⟩ [] rfl rfl rfl,
   gateway_errors_surface_in_reply.2.2.2 (fun _ _ => Except.error "下游超时")
     _ "s3" ⟨"cancel_order", "\x7b\"orderNumber\":\"ORD-2\"\x7d"⟩ "下游超时"
     (by decide) rfl⟩

theorem chatLoopAux_rounds_le
    (llmChat : List Message → Except String LLMChatResponse)
    (execute : String → String → Except String String)
    (prettify : String → String) :
    ∀ (fuel : Nat) (msgs : List Message),
      (chatLoopAux llmChat execute prettify fuel msgs).2 ≤ fuel := by
  intro fuel
  induction fuel with
  | zero => intro msgs; simp [chatLoopAux]
  | succ n ih =>
    intro msgs
    cases hllm : llmChat msgs with
    | error e => simp [chatLoopAux, hllm]
    | ok resp =>
      by_cases hs : ShouldCallTool resp = true
      · simp only [chatLoopAux, hllm, if_pos hs]
        exact Nat.succ_le_succ (ih _)
      · simp only [chatLoopAux, hllm, if_neg hs]
        simp

theorem chatLoopAux_all_tools
    (llmChat : List Message → Except String LLMChatResponse)
    (execute : String → String → Except String String)
    (prettify : String → String)
    (hall : ∀ msgs, ∃ resp, llmChat msgs = .ok resp ∧ ShouldCallTool resp = true) :
    ∀ (fuel : Nat) (msgs : List Message),
      (chatLoopAux llmChat execute prettify fuel msgs).1
        = .ok "抱歉,处理您的请求时遇到了问题,请稍后再试。" := by
  intro fuel
  induction fuel with
  | zero => intro msgs; rfl
  | succ n ih =>
    intro msgs
    obtain ⟨resp, hok, hs⟩ := hall msgs
    simp only [chatLoopAux, hok, if_pos hs]
    exact ih _

/-- C9: the iterative tool-calling loop performs at most 5 LLM rounds; a round
that requests no tool call terminates the loop with that round's text; a round
that does request tool calls appends one assistant message plus one
tool-result message per executed call and continues; and when every round
requests tool calls the loop ends after its 5 rounds with the fixed fallback
apology. -/
theorem tool_loop_bounded_five_rounds
    (llmChat : List Message → Except String LLMChatResponse)
    (execute : String → String → Except String String)
    (prettify : String → String) :
    (∀ msgs, chatRounds llmChat execute prettify msgs ≤ 5) ∧
    (∀ msgs resp, llmChat msgs = .ok resp → ShouldCallTool resp = false →
      chatWithToolCalling llmChat execute prettify msgs
          = .ok (GetTextResponse resp) ∧
        chatRounds llmChat execute prettify msgs = 1) ∧
    (∀ (n : Nat) (msgs : List Message) (resp : LLMChatResponse),
      llmChat msgs = .ok resp → ShouldCallTool resp = true →
      (chatLoopAux llmChat execute prettify (n + 1) msgs).1
          = (chatLoopAux llmChat execute prettify n
              (msgs ++ [Message.mk "assistant" ""] ++ (GetToolCalls resp).map
                (fun tc =>
                  Message.mk "tool" (toolResultContent prettify execute tc)))).1 ∧
        ((GetToolCalls resp).map
          (fun tc => Message.mk "tool" (toolResultContent prettify execute tc))).length
            = (GetToolCalls resp).length) ∧
    ((∀ msgs, ∃ resp, llmChat msgs = .ok resp ∧ ShouldCallTool resp = true) →
      ∀ msgs, chatWithToolCalling llmChat execute prettify msgs
        = .ok "抱歉,处理您的请求时遇到了问题,请稍后再试。") := by
  refine ⟨?_, ?_, ?_, ?_⟩
  · intro msgs
    exact chatLoopAux_rounds_le llmChat execute prettify 5 msgs
  · intro msgs resp hok hs
    constructor
    · rw [chatWithToolCalling]
      simp only [chatLoopAux, hok, hs, Bool.false_eq_true, if_false]
    · rw [chatRounds]
      simp only [chatLoopAux, hok, hs, Bool.false_eq_true, if_false]
  · intro n msgs resp hok hs
    constructor
    · simp only [chatLoopAux, hok, if_pos hs]
    · rw [List.length_map]
  · intro hall msgs
    exact chatLoopAux_all_tools llmChat execute prettify hall 5 msgs

theorem tool_loop_bounded_five_rounds_witness :
    chatWithToolCalling
        (fun _ => Except.ok ⟨⟨"", "", [⟨"tool_calls", ⟨"", []⟩⟩]⟩⟩)
        (fun _ _ => Except.ok "r") id []
      = .ok "抱歉,处理您的请求时遇到了问题,请稍后再试。" ∧
    chatRounds (fun _ => Except.ok ⟨⟨"", "", [⟨"tool_calls", ⟨"", []⟩⟩]⟩⟩)
        (fun _ _ => Except.ok "r") id [] ≤ 5 ∧
    chatWithToolCalling (fun _ => Except.ok ⟨⟨"朋友你好", "stop", []⟩⟩)
        (fun _ _ => Except.ok "r") id []
      = .ok "朋友你好" := by
  refine ⟨?_, ?_, ?_⟩
  · exact (tool_loop_bounded_five_rounds _ _ _).2.2.2
      (fun msgs => ⟨_, rfl, by decide⟩) []
  · exact (tool_loop_bounded_five_rounds _ _ _).1 []
  · exact ((tool_loop_bounded_five_rounds
        (fun _ => Except.ok ⟨⟨"朋友你好", "stop", []⟩⟩)
        (fun _ _ => Except.ok "r") id).2.1 [] ⟨⟨"朋友你好", "stop", []⟩⟩
      rfl (by decide)).1


/-! ### Gateway trace lemmas (C3) -/

theorem grun_cons {s s'' : GState} {e : GEvent} {tr : List GEvent} :
    grun s (e :: tr) = some s'' ↔
      ∃ s', gstep s e = some s' ∧ grun s' tr = some s'' := by
  simp only [grun]
  cases h : gstep s e <;> simp [h]

theorem grun_singleton {s s' : GState} {e : GEvent} :
    grun s [e] = some s' ↔ gstep s e = some s' := by
  rw [grun_cons]
  constructor
  · rintro ⟨s₁, h1, h2⟩
    simp only [grun] at h2
    cases h2
    exact h1
  · intro h
    exact ⟨s', h, rfl⟩

